import Mathlib

/-!
Shallow embedding of the powdr continuations driver
(`src/riscv/src/continuations.rs`) and of the analyzed-type helpers
(`src/ast/src/analyzed/types.rs`), together with theorems about them.

The RISC-V executor, the `Pipeline`, the memory Merkle tree and the
bootloader constants are external collaborators of the analysed sources
(their code lives in other crates / files that are not part of the
sources); they are modelled from the specification as abstract parameters
or small interface structures.
-/

namespace Powdr

/-- The qualified name of the program-counter column, `"main.pc"`. -/
def mainPcColumn : String := "main.pc"

/-- The external witness column name used by `rust_continuations`. -/
def bootloaderInputColumnName : String := "main.bootloader_input_value"

/-- The infix of per-chunk pipeline names, `"_chunk_"`. -/
def chunkNameInfix : String := "_chunk_"

/-- One record of the executor's memory-access log (`trace.mem`):
the row index `idx` at which the access happened and the byte `address`
that was accessed. -/
structure MemoryAccess where
  idx : Nat
  address : Nat
deriving DecidableEq, Repr

/-- Modelled from the spec: interface of the memory page Merkle tree
(`memory_merkle_tree.rs` is not among the analysed sources).  `empty` is
`MerkleTree::new()`, `rootHash` is `root_hash()` (a sequence of field
elements), `get` returns a page's contents together with its inclusion
proof (a list of sibling hashes, each a sequence of field elements), and
`update` applies a memory snapshot update (a list of `(address, value)`
writes). -/
structure MerkleOps (F MT : Type) where
  empty : MT
  rootHash : MT → List F
  get : MT → Nat → List F × List (List F)
  update : MT → List (Nat × F) → MT

/-- Modelled from the spec: the constants exported by the bootloader
module (`bootloader.rs` is not among the analysed sources):
`REGISTER_NAMES`, `PC_INDEX`, `PAGE_SIZE_BYTES_LOG`, `F::from(DEFAULT_PC)`,
`default_register_values()`, and the field-element conversion from
unsigned integers (`u64::into`). -/
structure BootEnv (F : Type) where
  registerNames : List String
  pcIndex : Nat
  pageSizeLog : Nat
  defaultPC : F
  defaultRegisterValues : List F
  fromNat : Nat → F

/-! ### Binary search over the memory-access log

`continuations.rs` lines 179-181 call Rust's
`slice::binary_search_by_key(&proven_trace, |a| a.idx).unwrap_or_else(|v| v)`,
which collapses the `Ok(position_of_a_match)` and `Err(insertion_point)`
results into a single index.  The loop below is the algorithm of
`slice::binary_search_by` from the Rust standard library.  The `fuel`
argument only bounds the recursion; the interval size `right - left`
strictly decreases at every iteration, so `l.length + 1` units of fuel are
always sufficient (`binarySearchLoop_fuel_irrelevant`). -/

/-- The loop of Rust's `slice::binary_search_by`, specialised to the key
function `|a| a.idx` and with `Ok`/`Err` collapsed as done by
`unwrap_or_else(|v| v)` at `continuations.rs:181`. -/
def binarySearchLoop (l : List MemoryAccess) (key : Nat) : Nat → Nat → Nat → Nat
  | 0, left, _ => left
  | fuel + 1, left, right =>
    if left < right then
      let mid := left + (right - left) / 2
      let a := l.getD mid ⟨0, 0⟩
      if a.idx < key then binarySearchLoop l key fuel (mid + 1) right
      else if key < a.idx then binarySearchLoop l key fuel left mid
      else mid
    else left

/-- `memory_accesses.binary_search_by_key(&key, |a| a.idx).unwrap_or_else(|v| v)`
(`continuations.rs:179-181`). -/
def binarySearchIdx (l : List MemoryAccess) (key : Nat) : Nat :=
  binarySearchLoop l key (l.length + 1) 0 l.length

/-- Insertion into an ascending duplicate-free list of page indices;
this models `BTreeSet::insert` (`accessed_pages.insert(...)`,
`continuations.rs:190`) together with the ascending iteration order of
`BTreeSet` used at `continuations.rs:201`. -/
def insertSorted (x : Nat) : List Nat → List Nat
  | [] => [x]
  | y :: ys =>
    if x < y then x :: y :: ys
    else if x = y then y :: ys
    else y :: insertSorted x ys

/-- The accessed-pages computation of one driver iteration
(`continuations.rs:178-191`): binary-search the access log for
`proven_trace`, then scan forward while `access.idx < proven_trace +
num_rows` (the `break` is the `takeWhile`), inserting
`access.address >> PAGE_SIZE_BYTES_LOG` into the ordered set.  The result
is the ascending list of accessed page indices. -/
def accessedPagesList (memoryAccesses : List MemoryAccess)
    (provenTrace numRows pageSizeLog : Nat) : List Nat :=
  let startIdx := binarySearchIdx memoryAccesses provenTrace
  ((memoryAccesses.drop startIdx).takeWhile
      (fun a => a.idx < provenTrace + numRows)).foldl
    (fun s a => insertSorted (a.address >>> pageSizeLog) s) []

/-- The per-page block pushed at `continuations.rs:202-207`:
the page index as a field element, then the page contents, then the
inclusion proof flattened sibling after sibling. -/
def pageEntry {F MT : Type} (env : BootEnv F) (M : MerkleOps F MT)
    (tree : MT) (p : Nat) : List F :=
  env.fromNat p :: ((M.get tree p).1 ++ (M.get tree p).2.flatten)

/-- The bootloader-input assembly of `continuations.rs:198-208`:
register snapshot, Merkle root, page count, then one `pageEntry` per
accessed page in ascending order. -/
def assembleBootloaderInputs {F MT : Type} (env : BootEnv F)
    (M : MerkleOps F MT) (tree : MT) (registerValues : List F)
    (pages : List Nat) : List F :=
  registerValues ++ M.rootHash tree ++ [env.fromNat pages.length]
    ++ pages.flatMap (pageEntry env M tree)

/-! ### Chunk validation (`continuations.rs:229-259`) -/

/-- The data reported by the fatal log messages at
`continuations.rs:241-256` when the chunk trace diverges from the full
trace: the chunk row, the full-trace row, the offending register and the
two differing values. -/
structure MismatchReport (F : Type) where
  chunkRow : Nat
  fullRow : Nat
  reg : String
  chunkVal : F
  fullVal : F
deriving DecidableEq, Repr

/-- Outcome of the validation loop.  `chunkRowMissing` / `fullRowMissing`
model the index-out-of-bounds panics of `chunk_trace[reg][chunk_i]` /
`full_trace[reg][full_i]`, and `mismatch` models the explicit `panic!()`
at `continuations.rs:256`. -/
inductive ValidationOutcome (F : Type) where
  | ok
  | chunkRowMissing (reg : String) (chunkRow : Nat)
  | fullRowMissing (reg : String) (fullRow : Nat)
  | mismatch (r : MismatchReport F)
deriving DecidableEq, Repr

/-- The inner loop over `REGISTER_NAMES` of the validation step
(`continuations.rs:237-258`) for a fixed pair of rows: look up the chunk
value and the full-trace value of each register and stop at the first
out-of-bounds access or difference. -/
def checkRegs {F : Type} [DecidableEq F] (chunkTrace fullTrace : String → List F)
    (chunkRow fullRow : Nat) : List String → ValidationOutcome F
  | [] => .ok
  | reg :: rest =>
    match (chunkTrace reg).get? chunkRow with
    | none => .chunkRowMissing reg chunkRow
    | some cv =>
      match (fullTrace reg).get? fullRow with
      | none => .fullRowMissing reg fullRow
      | some fv =>
        if cv = fv then checkRegs chunkTrace fullTrace chunkRow fullRow rest
        else .mismatch ⟨chunkRow, fullRow, reg, cv, fv⟩

/-- The outer loop of the validation step (`continuations.rs:236`):
for row offsets `i, i+1, ...` (`n` of them) compare chunk row `i + start`
with full-trace row `i + proven_trace` for every register, stopping at the
first panic.  The driver calls it with `i = 0` and
`n = chunk_trace["main.pc"].len() - start`. -/
def validateChunk {F : Type} [DecidableEq F] (chunkTrace fullTrace : String → List F)
    (regNames : List String) (start provenTrace : Nat) :
    Nat → Nat → ValidationOutcome F
  | _, 0 => .ok
  | i, n + 1 =>
    if checkRegs chunkTrace fullTrace (i + start) (i + provenTrace) regNames = .ok then
      validateChunk chunkTrace fullTrace regNames start provenTrace (i + 1) n
    else checkRegs chunkTrace fullTrace (i + start) (i + provenTrace) regNames

/-! ### The chunking-driver loop (`continuations.rs:174-278`) -/

/-- Everything computed for one chunk by a driver iteration.  `inputs`,
`chunkTrace`, `start` and `snapshot` are the values the source computes at
lines 198-208, 215-224 and 230-234; `entryRegs`, `entryTree`, `pages` and
`provenTrace` record the loop state the iteration started from (the
values of `register_values`, `merkle_tree`, `accessed_pages` and
`proven_trace` at those same lines). -/
structure ChunkRecord (F MT : Type) where
  inputs : List F
  entryRegs : List F
  entryTree : MT
  pages : List Nat
  provenTrace : Nat
  chunkTrace : String → List F
  start : Nat
  snapshot : List (Nat × F)

/-- The mutable state of the driver loop: `merkle_tree`,
`register_values`, `proven_trace` and `chunk_index`
(`continuations.rs:117-161`). -/
structure DryState (F MT : Type) where
  tree : MT
  registerValues : List F
  provenTrace : Nat
  chunkIndex : Nat

/-- The ways `rust_continuations_dry_run` can panic:
the `unwrap` at `continuations.rs:154` (`noFirstRealRow`), the `unwrap`
at line 169 (`noDegree`), the indexing `bootloader_inputs[PC_INDEX]` at
line 233 (`pcInputMissing`), the `unwrap` at line 234
(`chunkStartNotFound`), the validation loop at lines 236-259
(`validationFailed`), and the `unwrap` of `chunk_trace[r].last()` at line
274 (`emptyRegisterColumn`). -/
inductive DryRunPanic (F : Type) where
  | noFirstRealRow
  | noDegree
  | pcInputMissing (chunkIndex : Nat)
  | chunkStartNotFound (chunkIndex : Nat)
  | validationFailed (out : ValidationOutcome F)
  | emptyRegisterColumn
deriving Repr

/-- Result of one driver iteration: a panic, a final chunk (the `break`
at `continuations.rs:263`), or a chunk followed by the next loop state. -/
inductive StepResult (F MT : Type) where
  | panic (p : DryRunPanic F)
  | done (r : ChunkRecord F MT)
  | next (r : ChunkRecord F MT) (st : DryState F MT)

/-- `register_values = REGISTER_NAMES.iter().map(|&r|
*chunk_trace[r].last().unwrap()).collect()` (`continuations.rs:272-275`);
`none` models the panic of `unwrap` on an empty column. -/
def regsLastRow {F : Type} (regNames : List String)
    (chunkTrace : String → List F) : Option (List F) :=
  match regNames with
  | [] => some []
  | r :: rest =>
    match (chunkTrace r).getLast? with
    | none => none
    | some v => (regsLastRow rest chunkTrace).map (fun vs => v :: vs)

/-- One iteration of the driver loop (`continuations.rs:174-278`):
compute the accessed pages, assemble and emit the bootloader inputs,
execute the chunk with row budget `num_rows`, update the Merkle tree,
locate the chunk-local start row, validate the chunk against the full
trace, and either stop (chunk trace shorter than `num_rows`) or advance
`proven_trace` by `num_rows - start - 1` and take the register snapshot
from the last row of the chunk trace. -/
def dryRunStep {F MT : Type} [DecidableEq F] (env : BootEnv F)
    (M : MerkleOps F MT)
    (exec : List F → Nat → (String → List F) × List (Nat × F))
    (fullTrace : String → List F) (memoryAccesses : List MemoryAccess)
    (numRows : Nat) (st : DryState F MT) : StepResult F MT :=
  let pages := accessedPagesList memoryAccesses st.provenTrace numRows env.pageSizeLog
  let bootloaderInputs := assembleBootloaderInputs env M st.tree st.registerValues pages
  let chunkTrace := (exec bootloaderInputs numRows).1
  let memorySnapshotUpdate := (exec bootloaderInputs numRows).2
  let tree := M.update st.tree memorySnapshotUpdate
  match bootloaderInputs.get? env.pcIndex with
  | none => .panic (.pcInputMissing st.chunkIndex)
  | some pcValue =>
    match (chunkTrace mainPcColumn).findIdx? (fun pc => pc = pcValue) with
    | none => .panic (.chunkStartNotFound st.chunkIndex)
    | some start =>
      let record : ChunkRecord F MT :=
        ⟨bootloaderInputs, st.registerValues, st.tree, pages, st.provenTrace,
          chunkTrace, start, memorySnapshotUpdate⟩
      match validateChunk chunkTrace fullTrace env.registerNames start
          st.provenTrace 0 ((chunkTrace mainPcColumn).length - start) with
      | .ok =>
        if (chunkTrace mainPcColumn).length < numRows then .done record
        else
          match regsLastRow env.registerNames chunkTrace with
          | none => .panic .emptyRegisterColumn
          | some newRegs =>
            .next record
              ⟨tree, newRegs, st.provenTrace + (numRows - start - 1), st.chunkIndex + 1⟩
      | out => .panic (.validationFailed out)

/-- The driver loop (`loop { ... }` at `continuations.rs:174-278`),
collecting one `ChunkRecord` per iteration.  `none` means the fuel ran
out before the loop terminated. -/
def dryRunLoop {F MT : Type} [DecidableEq F] (env : BootEnv F)
    (M : MerkleOps F MT)
    (exec : List F → Nat → (String → List F) × List (Nat × F))
    (fullTrace : String → List F) (memoryAccesses : List MemoryAccess)
    (numRows : Nat) :
    Nat → DryState F MT → Option (Except (DryRunPanic F) (List (ChunkRecord F MT)))
  | 0, _ => none
  | fuel + 1, st =>
    match dryRunStep env M exec fullTrace memoryAccesses numRows st with
    | .panic p => some (.error p)
    | .done r => some (.ok [r])
    | .next r st' =>
      match dryRunLoop env M exec fullTrace memoryAccesses numRows fuel st' with
      | none => none
      | some (.error p) => some (.error p)
      | some (.ok rs) => some (.ok (r :: rs))

/-- `continuations.rs:150-154`: the first row of the full trace whose PC
equals `F::from(DEFAULT_PC)`. -/
def firstRealExecutionRow {F : Type} [DecidableEq F] (env : BootEnv F)
    (fullTrace : String → List F) : Option Nat :=
  (fullTrace mainPcColumn).findIdx? (fun pc => pc = env.defaultPC)

/-- `continuations.rs:165-169`: fold the machines' declared degrees with
`acc.or(m.degree)`, i.e. keep the first declared degree in iteration
order.  A machine is represented by its optional declared degree. -/
def machineDegree (machines : List (Option Nat)) : Option Nat :=
  machines.foldl (fun acc d => acc.or d) none

/-- `rust_continuations_dry_run` (`continuations.rs:112-279`) from the
point where the full trace and the memory-access log exist, instrumented
to return the whole `ChunkRecord` of every chunk.  The executor, the full
trace, the access log and the machine list are parameters because the
executor and the pipeline are external collaborators.  The field-element
round-trip `F::from(degree).to_degree()` at line 171 is modelled as the
identity on the declared degree.  `none` means the fuel ran out. -/
def dryRunRecords {F MT : Type} [DecidableEq F] (env : BootEnv F)
    (M : MerkleOps F MT)
    (exec : List F → Nat → (String → List F) × List (Nat × F))
    (fullTrace : String → List F) (memoryAccesses : List MemoryAccess)
    (machines : List (Option Nat)) (fuel : Nat) :
    Option (Except (DryRunPanic F) (List (ChunkRecord F MT))) :=
  match firstRealExecutionRow env fullTrace with
  | none => some (.error .noFirstRealRow)
  | some firstReal =>
    match machineDegree machines with
    | none => some (.error .noDegree)
    | some degree =>
      dryRunLoop env M exec fullTrace memoryAccesses (degree - 2) fuel
        ⟨M.empty, env.defaultRegisterValues, firstReal, 0⟩

/-- The return value of `rust_continuations_dry_run`:
`all_bootloader_inputs`, one input vector per chunk
(`continuations.rs:212` and `279`). -/
def rust_continuations_dry_run {F MT : Type} [DecidableEq F] (env : BootEnv F)
    (M : MerkleOps F MT)
    (exec : List F → Nat → (String → List F) × List (Nat × F))
    (fullTrace : String → List F) (memoryAccesses : List MemoryAccess)
    (machines : List (Option Nat)) (fuel : Nat) :
    Option (Except (DryRunPanic F) (List (List F))) :=
  (dryRunRecords env M exec fullTrace memoryAccesses machines fuel).map
    (Except.map (List.map ChunkRecord.inputs))

/-- The suffix of a chunk's trace column starting at the chunk's `start`
row. -/
def chunkSuffix {F MT : Type} (r : ChunkRecord F MT) (reg : String) : List F :=
  (r.chunkTrace reg).drop r.start

/-- Concatenation of the validated chunk suffixes: each chunk contributes
its rows from `start` on, with the last row dropped for every chunk
except the final one. -/
def chunkConcat {F MT : Type} : List (ChunkRecord F MT) → String → List F
  | [], _ => []
  | [r], reg => chunkSuffix r reg
  | r :: r' :: rs, reg => (chunkSuffix r reg).dropLast ++ chunkConcat (r' :: rs) reg

/-! ### The continuation prover harness (`continuations.rs:39-78`) -/

/-- Modelled from the spec: the `Pipeline` of the pipeline crate, reduced
to the state observable through the operations `rust_continuations` uses:
its name (`name()` / `with_name`) and its external witness columns
(`add_external_witness_values`).  Advancing to the
`PilWithEvaluatedFixedCols` stage and resuming from it
(`continuations.rs:52-59`) returns "the same pipeline as
`pipeline_factory()` (with the same name, output dir, etc...)" per the
comment at line 54, so the optimized factory is observably the factory
itself. -/
structure Pipeline (F : Type) where
  name : String
  externalWitness : List (String × List F)

/-- `pipeline.with_name(format!("{}_chunk_{}", pipeline.name(), i))`
composed with
`add_external_witness_values(vec![("main.bootloader_input_value", inputs)])`
(`continuations.rs:66-72`). -/
def chunkPipeline {F : Type} (factory : Unit → Pipeline F) (i : Nat)
    (inputs : List F) : Pipeline F :=
  let p := factory ()
  { name := p.name ++ chunkNameInfix ++ toString i,
    externalWitness := p.externalWitness ++ [(bootloaderInputColumnName, inputs)] }

/-- The enumerated iteration of `continuations.rs:61-76`:
`bootloader_inputs.into_iter().enumerate().map(...).collect::<Result<...>>()`.
`collect` over a `Result` iterator stops at the first error, so the
callbacks after the first failing one are never invoked. -/
def runChunks {F E : Type} (factory : Unit → Pipeline F)
    (callback : Pipeline F → Except E Unit) :
    Nat → List (List F) → Except E Unit
  | _, [] => .ok ()
  | i, v :: rest =>
    match callback (chunkPipeline factory i v) with
    | .error e => .error e
    | .ok _ => runChunks factory callback (i + 1) rest

/-- `rust_continuations` (`continuations.rs:39-78`). -/
def rust_continuations {F E : Type} (factory : Unit → Pipeline F)
    (callback : Pipeline F → Except E Unit) (bootloaderInputs : List (List F)) :
    Except E Unit :=
  runChunks factory callback 0 bootloaderInputs

/-! ### Analyzed types (`src/ast/src/analyzed/types.rs`) -/

/-- The `Type` enum of `types.rs:21-43` (named `Ty` because `Type` is a
Lean keyword).  `array` carries the optional length, `tuple` its items,
`function` its parameters and value. -/
inductive Ty where
  | bottom
  | bool
  | int
  | fe
  | string
  | col
  | expr
  | constr
  | array (base : Ty) (length : Option Nat)
  | tuple (items : List Ty)
  | function (params : List Ty) (value : Ty)
  | typeVar (name : String)

/-- `is_elementary` (`types.rs:46-58`). -/
def Ty.is_elementary : Ty → Bool
  | .bottom | .bool | .int | .fe | .string | .expr | .col | .constr => true
  | .array _ _ | .tuple _ | .function _ _ | .typeVar _ => false

/-- `contained_type_vars_with_repetitions` (`types.rs:120-140`), with the
lazy iterator of boxed sub-iterators realised as the list it yields:
a type variable yields its name, an array defers to its base, a tuple
chains its items, a function chains its parameters and then its value,
and elementary types yield nothing. -/
def Ty.containedTypeVarsWithRepetitions : Ty → List String
  | .typeVar n => [n]
  | .array base _ => base.containedTypeVarsWithRepetitions
  | .tuple items => items.attach.flatMap
      (fun x => x.1.containedTypeVarsWithRepetitions)
  | .function params value => (params.attach.flatMap
      (fun x => x.1.containedTypeVarsWithRepetitions))
      ++ value.containedTypeVarsWithRepetitions
  | _ => []
termination_by t => sizeOf t
decreasing_by
  all_goals simp_wf
  all_goals try (have hmem := List.sizeOf_lt_of_mem x.2; omega)
  all_goals omega

/-- `Itertools::unique`: keep the first occurrence of every element,
dropping later duplicates; `seen` is the set of elements already
yielded. -/
def uniqueFirst (seen : List String) : List String → List String
  | [] => []
  | x :: xs =>
    if x ∈ seen then uniqueFirst seen xs
    else x :: uniqueFirst (x :: seen) xs

/-- `contained_type_vars` (`types.rs:82-84`):
`contained_type_vars_with_repetitions().unique()`. -/
def Ty.containedTypeVars (t : Ty) : List String :=
  uniqueFirst [] t.containedTypeVarsWithRepetitions

/-- `is_concrete_type` (`types.rs:72-74`):
`contained_type_vars_with_repetitions().next().is_none()`. -/
def Ty.is_concrete_type (t : Ty) : Bool :=
  t.containedTypeVarsWithRepetitions.isEmpty

/-- Spec-side reference for claim C10, following the claim's words: the
type-variable names occurring in a type, one entry per occurrence, in
left-to-right traversal order — array base, then tuple items in order,
then function parameters in order followed by the function value. -/
def typeVarOccurrences : Ty → List String
  | .typeVar n => [n]
  | .array base _ => typeVarOccurrences base
  | .tuple items => (items.attach.map (fun x => typeVarOccurrences x.1)).flatten
  | .function params value =>
      (params.attach.map (fun x => typeVarOccurrences x.1)).flatten
        ++ typeVarOccurrences value
  | _ => []
termination_by t => sizeOf t
decreasing_by
  all_goals simp_wf
  all_goals try (have hmem := List.sizeOf_lt_of_mem x.2; omega)
  all_goals omega

/-- Spec-side reference for claim C10: deduplication keeping only the
first occurrence of each name, written as a left fold that appends a name
exactly when it has not been seen yet. -/
def firstOccurrences (l : List String) : List String :=
  l.foldl (fun acc n => if n ∈ acc then acc else acc ++ [n]) []

/-! ### Concrete instances used by witnesses and counterexamples -/

/-- Base pipeline name of the concrete harness instance. -/
def cBaseName : String := "base"

/-- A concrete pipeline factory over `F = Nat`. -/
def cFactory : Unit → Pipeline Nat := fun _ => ⟨cBaseName, []⟩

/-- A concrete callback that fails (with error `5`) exactly on the chunk-1
pipeline name. -/
def cCallback : Pipeline Nat → Except Nat Unit := fun p =>
  if p.name = cBaseName ++ chunkNameInfix ++ toString 1 then .error 5 else .ok ()

/-- The access log of the counterexample to claim C5 as stated: three
accesses in the same trace row (duplicate `idx` keys), in pairwise
distinct pages. -/
def cexLog : List MemoryAccess := [⟨0, 0⟩, ⟨0, 2⟩, ⟨0, 4⟩]

/-- A strictly `idx`-sorted access log used by the witness of the amended
claim C5. -/
def strictLog : List MemoryAccess := [⟨0, 2⟩, ⟨1, 4⟩]

/-- Register-name list of the concrete validation instances: just the PC
column. -/
def cRegNames : List String := [mainPcColumn]

/-- A concrete two-row chunk trace (every column is `[5, 5]`). -/
def cLongChunk : String → List Nat := fun _ => [5, 5]

/-- A concrete one-row full trace (every column is `[5]`): shorter than
the remaining chunk rows, so the validation loop reads past its end. -/
def cShortFull : String → List Nat := fun _ => [5]

/-- A concrete chunk trace whose second row differs from the full
trace. -/
def cMismatchChunk : String → List Nat := fun _ => [5, 6]

/-- A concrete full trace whose second row differs from the chunk
trace. -/
def cMismatchFull : String → List Nat := fun _ => [5, 7]

/-- Concrete driver environment over `F = Nat` used by the driver
witnesses: one register (the PC), `PC_INDEX = 0`, page shift 1, default
PC 7. -/
def wEnv : BootEnv Nat :=
  { registerNames := [mainPcColumn], pcIndex := 0, pageSizeLog := 1, defaultPC := 7,
    defaultRegisterValues := [7], fromNat := fun n => n }

/-- Concrete Merkle interface for the witnesses: the tree is the list of
applied update batches, the root is the batch count, pages are the
one-element zero page with an empty proof. -/
def wM : MerkleOps Nat (List (List (Nat × Nat))) :=
  { empty := [], rootHash := fun t => [t.length], get := fun _ _ => ([0], []),
    update := fun t s => t ++ [s] }

/-- Concrete executor for the witnesses: every column is the one-row
`[7]` clipped to the row budget; no memory writes. -/
def wExec : List Nat → Nat → (String → List Nat) × List (Nat × Nat) :=
  fun _ n => (fun _ => [7].take n, [])

/-- Concrete one-row full trace for the witnesses. -/
def wFull : String → List Nat := fun _ => [7]

/-- Concrete machine list for the witnesses: one machine of degree 4,
hence a row budget of 2. -/
def wMachines : List (Option Nat) := [some 4]

/-- The single chunk record produced by the concrete witness run. -/
def wRecord : ChunkRecord Nat (List (List (Nat × Nat))) :=
  { inputs := [7, 0, 0], entryRegs := [7], entryTree := [], pages := [],
    provenTrace := 0, chunkTrace := fun _ => [7].take 2, start := 0, snapshot := [] }

/-- The record list of the concrete witness run. -/
def wRecords : List (ChunkRecord Nat (List (List (Nat × Nat)))) := [wRecord]

/-! ## Theorems -/

/-- `uniqueFirst` only depends on the seen set up to membership. -/
theorem uniqueFirst_congr (xs : List String) : ∀ s₁ s₂, (∀ a, a ∈ s₁ ↔ a ∈ s₂) →
    uniqueFirst s₁ xs = uniqueFirst s₂ xs := by
  induction xs with
  | nil => intro _ _ _; rfl
  | cons x xs ih =>
    intro s₁ s₂ h
    simp only [uniqueFirst]
    by_cases hx : x ∈ s₁
    · rw [if_pos hx, if_pos ((h x).1 hx)]
      exact ih _ _ h
    · rw [if_neg hx, if_neg (fun c => hx ((h x).2 c))]
      rw [ih (x :: s₁) (x :: s₂) (by intro a; simp [h a])]

/-- The fold of `firstOccurrences` started from `acc` is `acc` followed
by `uniqueFirst acc`. -/
theorem foldl_firstOccurrences (xs : List String) : ∀ acc,
    xs.foldl (fun acc n => if n ∈ acc then acc else acc ++ [n]) acc
      = acc ++ uniqueFirst acc xs := by
  induction xs with
  | nil => intro acc; simp [uniqueFirst]
  | cons x xs ih =>
    intro acc
    simp only [List.foldl, uniqueFirst]
    by_cases hx : x ∈ acc
    · rw [if_pos hx, if_pos hx, ih acc]
    · rw [if_neg hx, if_neg hx, ih (acc ++ [x]),
        uniqueFirst_congr xs (acc ++ [x]) (x :: acc) (by intro a; simp [or_comm]),
        List.append_assoc]
      rfl

/-- The iterator chain of `contained_type_vars_with_repetitions` yields
exactly the spec-side traversal `typeVarOccurrences`. -/
theorem containedTypeVarsWithRepetitions_eq_occurrences (t : Ty) :
    t.containedTypeVarsWithRepetitions = typeVarOccurrences t := by
  induction t using Powdr.typeVarOccurrences.induct with
  | case1 n => simp [Ty.containedTypeVarsWithRepetitions, typeVarOccurrences]
  | case2 base l ih =>
    rw [Ty.containedTypeVarsWithRepetitions, typeVarOccurrences, ih]
  | case3 items ih =>
    rw [Ty.containedTypeVarsWithRepetitions, typeVarOccurrences, List.flatMap_def]
    congr 1
    exact List.map_congr_left (fun x _ => ih x)
  | case4 params value ihp ihv =>
    rw [Ty.containedTypeVarsWithRepetitions, typeVarOccurrences, List.flatMap_def, ihv]
    congr 2
    exact List.map_congr_left (fun x _ => ihp x)
  | case5 t h1 h2 h3 h4 =>
    cases t
    case array b l => exact absurd rfl (h2 b l)
    case tuple items => exact absurd rfl (h3 items)
    case function p v => exact absurd rfl (h4 p v)
    case typeVar n => exact absurd rfl (h1 n)
    all_goals simp [Ty.containedTypeVarsWithRepetitions, typeVarOccurrences]

/-- `checkRegs` succeeds iff every register's chunk and full-trace
lookups succeed and agree. -/
theorem checkRegs_ok_iff {F : Type} [DecidableEq F] (ct ft : String → List F)
    (cr fr : Nat) : ∀ (regs : List String),
    (checkRegs ct ft cr fr regs = .ok ↔
      ∀ reg ∈ regs, ∃ v, (ct reg).get? cr = some v ∧ (ft reg).get? fr = some v) := by
  intro regs
  induction regs with
  | nil => simp [checkRegs]
  | cons reg rest ih =>
    rcases hc : (ct reg).get? cr with _ | cv
    · simp only [checkRegs, hc]
      constructor
      · intro h; exact absurd h (by simp)
      · intro h
        obtain ⟨v, hv, _⟩ := h reg (List.mem_cons_self _ _)
        rw [hc] at hv
        exact absurd hv (by simp)
    · rcases hf : (ft reg).get? fr with _ | fv
      · simp only [checkRegs, hc, hf]
        constructor
        · intro h; exact absurd h (by simp)
        · intro h
          obtain ⟨v, _, hv⟩ := h reg (List.mem_cons_self _ _)
          rw [hf] at hv
          exact absurd hv (by simp)
      · by_cases he : cv = fv
        · simp only [checkRegs, hc, hf, if_pos he, ih]
          constructor
          · intro h reg' hr'
            rcases List.mem_cons.mp hr' with rfl | hr''
            · exact ⟨cv, hc, he ▸ hf⟩
            · exact h reg' hr''
          · intro h reg' hr'
            exact h reg' (List.mem_cons_of_mem _ hr')
        · simp only [checkRegs, hc, hf, if_neg he]
          constructor
          · intro h; exact absurd h (by simp)
          · intro h
            obtain ⟨v, hv1, hv2⟩ := h reg (List.mem_cons_self _ _)
            rw [hc] at hv1
            rw [hf] at hv2
            cases Option.some.inj hv1
            cases Option.some.inj hv2
            exact absurd rfl he

/-- Inversion of a `checkRegs` mismatch: the report's fields are the
looked-up values of an actual differing register at exactly the compared
rows. -/
theorem checkRegs_mismatch_inv {F : Type} [DecidableEq F] (ct ft : String → List F)
    (cr fr : Nat) : ∀ (regs : List String) (rep : MismatchReport F),
    checkRegs ct ft cr fr regs = .mismatch rep →
      rep.chunkRow = cr ∧ rep.fullRow = fr ∧ rep.reg ∈ regs
      ∧ (ct rep.reg).get? cr = some rep.chunkVal
      ∧ (ft rep.reg).get? fr = some rep.fullVal
      ∧ rep.chunkVal ≠ rep.fullVal := by
  intro regs
  induction regs with
  | nil => intro rep h; exact absurd h (by simp [checkRegs])
  | cons reg rest ih =>
    intro rep h
    rcases hc : (ct reg).get? cr with _ | cv
    · simp only [checkRegs, hc] at h
      exact absurd h (by simp)
    · rcases hf : (ft reg).get? fr with _ | fv
      · simp only [checkRegs, hc, hf] at h
        exact absurd h (by simp)
      · by_cases he : cv = fv
        · simp only [checkRegs, hc, hf, if_pos he] at h
          obtain ⟨h1, h2, h3, h4, h5, h6⟩ := ih rep h
          exact ⟨h1, h2, List.mem_cons_of_mem _ h3, h4, h5, h6⟩
        · simp only [checkRegs, hc, hf, if_neg he] at h
          cases h
          exact ⟨rfl, rfl, List.mem_cons_self _ _, hc, hf, he⟩

/-- If all full-trace lookups of the row are in bounds, `checkRegs` never
takes the full-trace out-of-range branch. -/
theorem checkRegs_no_full_oob {F : Type} [DecidableEq F] (ct ft : String → List F)
    (cr fr : Nat) : ∀ (regs : List String),
    (∀ reg ∈ regs, fr < (ft reg).length) →
    ∀ reg' i, checkRegs ct ft cr fr regs ≠ .fullRowMissing reg' i := by
  intro regs
  induction regs with
  | nil => intro _ reg' i h; exact absurd h (by simp [checkRegs])
  | cons reg rest ih =>
    intro hb reg' i h
    rcases hc : (ct reg).get? cr with _ | cv
    · simp only [checkRegs, hc] at h
      exact absurd h (by simp)
    · rcases hf : (ft reg).get? fr with _ | fv
      · have hlen := hb reg (List.mem_cons_self _ _)
        have := List.get?_eq_none.mp hf
        omega
      · by_cases he : cv = fv
        · simp only [checkRegs, hc, hf, if_pos he] at h
          exact ih (fun r hr => hb r (List.mem_cons_of_mem _ hr)) reg' i h
        · simp only [checkRegs, hc, hf, if_neg he] at h
          exact absurd h (by simp)

/-- If every register's chunk lookup of the row is in bounds,
`checkRegs` is `ok` or a mismatch. -/
theorem checkRegs_ok_or_mismatch {F : Type} [DecidableEq F] (ct ft : String → List F)
    (cr fr : Nat) : ∀ (regs : List String),
    (∀ reg ∈ regs, cr < (ct reg).length ∧ fr < (ft reg).length) →
    (checkRegs ct ft cr fr regs = .ok
      ∨ ∃ rep, checkRegs ct ft cr fr regs = .mismatch rep) := by
  intro regs
  induction regs with
  | nil => intro _; exact Or.inl rfl
  | cons reg rest ih =>
    intro hb
    obtain ⟨hbc, hbf⟩ := hb reg (List.mem_cons_self _ _)
    rcases hc : (ct reg).get? cr with _ | cv
    · rw [List.get?_eq_getElem?, List.getElem?_eq_getElem hbc] at hc
      exact absurd hc (by simp)
    · rcases hf : (ft reg).get? fr with _ | fv
      · rw [List.get?_eq_getElem?, List.getElem?_eq_getElem hbf] at hf
        exact absurd hf (by simp)
      · by_cases he : cv = fv
        · simp only [checkRegs, hc, hf, if_pos he]
          exact ih (fun r hr => hb r (List.mem_cons_of_mem _ hr))
        · simp only [checkRegs, hc, hf, if_neg he]
          exact Or.inr ⟨_, rfl⟩

/-- `validateChunk` succeeds iff `checkRegs` succeeds on every compared
row. -/
theorem validateChunk_ok_iff {F : Type} [DecidableEq F] (ct ft : String → List F)
    (regs : List String) (start proven : Nat) : ∀ (n i : Nat),
    (validateChunk ct ft regs start proven i n = .ok ↔
      ∀ j, j < n → checkRegs ct ft ((i + j) + start) ((i + j) + proven) regs = .ok) := by
  intro n
  induction n with
  | zero => intro i; simp [validateChunk]
  | succ n ih =>
    intro i
    rw [validateChunk]
    by_cases hc : checkRegs ct ft (i + start) (i + proven) regs = .ok
    · rw [if_pos hc, ih (i + 1)]
      constructor
      · intro h j hj
        match j with
        | 0 => simpa using hc
        | j + 1 =>
          have := h j (by omega)
          have harith : i + 1 + j = i + (j + 1) := by omega
          rwa [harith] at this
      · intro h j hj
        have := h (j + 1) (by omega)
        have harith : i + (j + 1) = i + 1 + j := by omega
        rwa [harith] at this
    · rw [if_neg hc]
      constructor
      · intro h; exact absurd h hc
      · intro h
        have := h 0 (by omega)
        rw [Nat.add_zero] at this
        exact absurd this hc

/-- Inversion of a non-`ok` `validateChunk` run: the outcome is the
`checkRegs` outcome of some compared row. -/
theorem validateChunk_fail_inv {F : Type} [DecidableEq F] (ct ft : String → List F)
    (regs : List String) (start proven : Nat) : ∀ (n i : Nat) (out : ValidationOutcome F),
    validateChunk ct ft regs start proven i n = out → out ≠ .ok →
      ∃ j, j < n ∧ checkRegs ct ft ((i + j) + start) ((i + j) + proven) regs = out := by
  intro n
  induction n with
  | zero =>
    intro i out h hne
    rw [validateChunk] at h
    exact absurd h.symm hne
  | succ n ih =>
    intro i out h hne
    rw [validateChunk] at h
    by_cases hc : checkRegs ct ft (i + start) (i + proven) regs = .ok
    · rw [if_pos hc] at h
      obtain ⟨j, hj, hcj⟩ := ih (i + 1) out h hne
      refine ⟨j + 1, by omega, ?_⟩
      have harith : i + (j + 1) = i + 1 + j := by omega
      rwa [harith]
    · rw [if_neg hc] at h
      exact ⟨0, by omega, by rw [Nat.add_zero]; exact h⟩

/-- Claim C6: when every compared lookup is in bounds, the validation
step of a chunking-driver iteration panics if and only if some row offset
`i < count` and register in `REGISTER_NAMES` have
`chunk_trace[reg][start + i] ≠ full_trace[reg][proven_trace + i]`
(`count` is `chunk_trace_len − start` at the driver's call site); a panic
is always a mismatch panic whose report carries the chunk row, the
full-trace row, the offending register and the two differing values; and
with no mismatch the loop finishes normally. -/
theorem validation_panics_iff_mismatch {F : Type} [DecidableEq F]
    (chunkTrace fullTrace : String → List F) (regNames : List String)
    (start provenTrace count : Nat)
    (hb : ∀ i, i < count → ∀ reg ∈ regNames,
      i + start < (chunkTrace reg).length
        ∧ i + provenTrace < (fullTrace reg).length) :
    (validateChunk chunkTrace fullTrace regNames start provenTrace 0 count = .ok
      ↔ ¬ ∃ i, i < count ∧ ∃ reg ∈ regNames,
          (chunkTrace reg).get? (i + start) ≠ (fullTrace reg).get? (i + provenTrace))
    ∧ (∀ rep, validateChunk chunkTrace fullTrace regNames start provenTrace 0 count
          = .mismatch rep →
        rep.reg ∈ regNames
        ∧ (∃ i, i < count ∧ rep.chunkRow = i + start ∧ rep.fullRow = i + provenTrace)
        ∧ (chunkTrace rep.reg).get? rep.chunkRow = some rep.chunkVal
        ∧ (fullTrace rep.reg).get? rep.fullRow = some rep.fullVal
        ∧ rep.chunkVal ≠ rep.fullVal)
    ∧ (validateChunk chunkTrace fullTrace regNames start provenTrace 0 count = .ok
        ∨ ∃ rep, validateChunk chunkTrace fullTrace regNames start provenTrace 0 count
            = .mismatch rep) := by
  have hmain : ∀ i, i < count → ∀ reg ∈ regNames,
      ((∃ v, (chunkTrace reg).get? (i + start) = some v
          ∧ (fullTrace reg).get? (i + provenTrace) = some v)
        ↔ (chunkTrace reg).get? (i + start) = (fullTrace reg).get? (i + provenTrace)) := by
    intro i hi reg hreg
    obtain ⟨hbc, hbf⟩ := hb i hi reg hreg
    constructor
    · rintro ⟨v, h1, h2⟩; rw [h1, h2]
    · intro h
      rcases hcv : (chunkTrace reg).get? (i + start) with _ | cv
      · have := List.get?_eq_none.mp hcv
        omega
      · refine ⟨cv, rfl, ?_⟩
        rw [← h, hcv]
  refine ⟨?_, ?_, ?_⟩
  · rw [validateChunk_ok_iff]
    constructor
    · rintro h ⟨i, hi, reg, hreg, hne⟩
      have hok := h i hi
      rw [Nat.zero_add] at hok
      have := (checkRegs_ok_iff chunkTrace fullTrace (i + start) (i + provenTrace)
        regNames).mp hok reg hreg
      exact hne ((hmain i hi reg hreg).mp this)
    · intro h j hj
      rw [Nat.zero_add, checkRegs_ok_iff]
      intro reg hreg
      refine (hmain j hj reg hreg).mpr ?_
      by_contra hne
      exact h ⟨j, hj, reg, hreg, hne⟩
  · intro rep hrep
    obtain ⟨j, hj, hcj⟩ := validateChunk_fail_inv chunkTrace fullTrace regNames start
      provenTrace count 0 (.mismatch rep) hrep (by simp)
    rw [Nat.zero_add] at hcj
    obtain ⟨h1, h2, h3, h4, h5, h6⟩ := checkRegs_mismatch_inv chunkTrace fullTrace
      (j + start) (j + provenTrace) regNames rep hcj
    refine ⟨h3, ⟨j, hj, h1, h2⟩, ?_, ?_, h6⟩
    · rw [h1]; exact h4
    · rw [h2]; exact h5
  · cases hout : validateChunk chunkTrace fullTrace regNames start provenTrace 0 count with
    | ok => exact Or.inl rfl
    | chunkRowMissing r c =>
      exfalso
      obtain ⟨j, hj, hcj⟩ := validateChunk_fail_inv chunkTrace fullTrace regNames start
        provenTrace count 0 _ hout (by simp)
      rw [Nat.zero_add] at hcj
      rcases checkRegs_ok_or_mismatch chunkTrace fullTrace (j + start) (j + provenTrace)
        regNames (fun reg hreg => hb j hj reg hreg) with hok | ⟨rep', hrep'⟩
      · rw [hcj] at hok; exact absurd hok (by simp)
      · rw [hcj] at hrep'; exact absurd hrep' (by simp)
    | fullRowMissing r c =>
      exfalso
      obtain ⟨j, hj, hcj⟩ := validateChunk_fail_inv chunkTrace fullTrace regNames start
        provenTrace count 0 _ hout (by simp)
      rw [Nat.zero_add] at hcj
      rcases checkRegs_ok_or_mismatch chunkTrace fullTrace (j + start) (j + provenTrace)
        regNames (fun reg hreg => hb j hj reg hreg) with hok | ⟨rep', hrep'⟩
      · rw [hcj] at hok; exact absurd hok (by simp)
      · rw [hcj] at hrep'; exact absurd hrep' (by simp)
    | mismatch rep => exact Or.inr ⟨rep, rfl⟩

/-- Witness for claim C6's theorem at a concrete instance with all
lookups in bounds: the validation outcome over the diverging traces is
`ok` or a mismatch report. -/
theorem validation_panics_iff_mismatch_witness :
    validateChunk cMismatchChunk cMismatchFull cRegNames 0 0 0 2 = .ok
    ∨ ∃ rep, validateChunk cMismatchChunk cMismatchFull cRegNames 0 0 0 2
        = .mismatch rep :=
  (validation_panics_iff_mismatch cMismatchChunk cMismatchFull cRegNames 0 0 2
    (by decide)).2.2

/-- Claim C9: the validation loop indexes the full trace at rows
`proven_trace + i` with no bounds check; under the precondition that the
compared row count (`chunk_trace_len − start` at the call site) does not
exceed the unproven remainder of the full trace, the full-trace
out-of-range branch is unreachable; without the precondition the loop
does read past the end of the full trace (second conjunct: a two-row
chunk validated against a one-row full trace). -/
theorem full_trace_lookups_in_bounds {F : Type} [DecidableEq F]
    (chunkTrace fullTrace : String → List F) (regNames : List String)
    (start provenTrace count : Nat)
    (hpre : ∀ reg ∈ regNames, provenTrace + count ≤ (fullTrace reg).length) :
    (∀ reg fullRow,
      validateChunk chunkTrace fullTrace regNames start provenTrace 0 count
        ≠ .fullRowMissing reg fullRow)
    ∧ validateChunk cLongChunk cShortFull cRegNames 0 0 0 2
        = .fullRowMissing mainPcColumn 1 := by
  constructor
  · intro reg fullRow h
    obtain ⟨j, hj, hcj⟩ := validateChunk_fail_inv chunkTrace fullTrace regNames start
      provenTrace count 0 _ h (by simp)
    rw [Nat.zero_add] at hcj
    refine checkRegs_no_full_oob chunkTrace fullTrace (j + start) (j + provenTrace)
      regNames ?_ reg fullRow hcj
    intro r hr
    have := hpre r hr
    omega
  · decide

/-- Witness for claim C9's theorem at a concrete in-bounds instance:
validating the diverging two-row traces never takes the full-trace
out-of-range branch. -/
theorem full_trace_lookups_in_bounds_witness :
    validateChunk cMismatchChunk cMismatchFull cRegNames 0 0 0 2
      ≠ ValidationOutcome.fullRowMissing mainPcColumn 0 :=
  (full_trace_lookups_in_bounds cMismatchChunk cMismatchFull cRegNames 0 0 2
    (by decide)).1 mainPcColumn 0

/-- Membership in `insertSorted`. -/
theorem mem_insertSorted (x z : Nat) : ∀ (l : List Nat),
    (x ∈ insertSorted z l ↔ x = z ∨ x ∈ l) := by
  intro l
  induction l with
  | nil => simp [insertSorted]
  | cons y ys ih =>
    rw [insertSorted]
    by_cases h1 : z < y
    · rw [if_pos h1]; simp [List.mem_cons]
    · rw [if_neg h1]
      by_cases h2 : z = y
      · subst h2
        rw [if_pos rfl]
        simp only [List.mem_cons]
        constructor
        · intro h; exact Or.inr h
        · rintro (rfl | h)
          · exact Or.inl rfl
          · exact h
      · rw [if_neg h2]
        simp only [List.mem_cons, ih]
        tauto

/-- `insertSorted` preserves strict sortedness. -/
theorem pairwise_insertSorted (z : Nat) : ∀ (l : List Nat),
    l.Pairwise (· < ·) → (insertSorted z l).Pairwise (· < ·) := by
  intro l
  induction l with
  | nil => intro _; simp [insertSorted]
  | cons y ys ih =>
    intro h
    rw [insertSorted]
    by_cases h1 : z < y
    · rw [if_pos h1]
      refine List.Pairwise.cons ?_ h
      intro b hb
      rcases List.mem_cons.mp hb with rfl | hb'
      · exact h1
      · exact lt_trans h1 (List.rel_of_pairwise_cons h hb')
    · rw [if_neg h1]
      by_cases h2 : z = y
      · rw [if_pos h2]; exact h
      · rw [if_neg h2]
        have hyz : y < z := by omega
        refine List.Pairwise.cons ?_ (ih h.of_cons)
        intro b hb
        rcases (mem_insertSorted b z ys).mp hb with rfl | hb'
        · exact hyz
        · exact List.rel_of_pairwise_cons h hb'

/-- Membership in the fold that inserts the page of every access. -/
theorem mem_foldl_insertSorted (f : MemoryAccess → Nat) :
    ∀ (l : List MemoryAccess) (s : List Nat) (x : Nat),
      (x ∈ l.foldl (fun s a => insertSorted (f a) s) s ↔
        x ∈ s ∨ ∃ a ∈ l, f a = x) := by
  intro l
  induction l with
  | nil => intro s x; simp
  | cons y ys ih =>
    intro s x
    rw [List.foldl_cons, ih, mem_insertSorted]
    simp only [List.mem_cons]
    constructor
    · rintro ((rfl | hx) | ⟨a, ha, hfa⟩)
      · exact Or.inr ⟨y, Or.inl rfl, rfl⟩
      · exact Or.inl hx
      · exact Or.inr ⟨a, Or.inr ha, hfa⟩
    · rintro (hx | ⟨a, (rfl | ha), hfa⟩)
      · exact Or.inl (Or.inr hx)
      · exact Or.inl (Or.inl hfa.symm)
      · exact Or.inr ⟨a, ha, hfa⟩

/-- The fold that inserts pages preserves strict sortedness of the
accumulator. -/
theorem pairwise_foldl_insertSorted (f : MemoryAccess → Nat) :
    ∀ (l : List MemoryAccess) (s : List Nat),
      s.Pairwise (· < ·) →
      (l.foldl (fun s a => insertSorted (f a) s) s).Pairwise (· < ·) := by
  intro l
  induction l with
  | nil => intro s hs; exact hs
  | cons y ys ih =>
    intro s hs
    rw [List.foldl_cons]
    exact ih _ (pairwise_insertSorted (f y) s hs)

/-- Every index strictly below the result of the binary-search loop holds
an access with `idx < key`, provided the log is strictly sorted by `idx`
and the indices below `left` already satisfy this. -/
theorem binarySearchLoop_lower_bound (l : List MemoryAccess) (key : Nat)
    (hs : l.Pairwise (fun a b => a.idx < b.idx)) :
    ∀ fuel left right, right ≤ l.length →
      (∀ j a, j < left → l.get? j = some a → a.idx < key) →
      ∀ j a, j < binarySearchLoop l key fuel left right →
        l.get? j = some a → a.idx < key := by
  intro fuel
  induction fuel with
  | zero =>
    intro left right _ hleft j a hj ha
    rw [binarySearchLoop] at hj
    exact hleft j a hj ha
  | succ fuel ih =>
    intro left right hright hleft j a hj ha
    rw [binarySearchLoop] at hj
    by_cases hlr : left < right
    · rw [if_pos hlr] at hj
      simp only [] at hj
      have hmidlt : left + (right - left) / 2 < right := by omega
      have hmidlen : left + (right - left) / 2 < l.length := lt_of_lt_of_le hmidlt hright
      have hgetD : l.getD (left + (right - left) / 2) ⟨0, 0⟩
          = l[left + (right - left) / 2] := List.getD_eq_getElem l ⟨0, 0⟩ hmidlen
      have hbelow : ∀ j a, j ≤ left + (right - left) / 2 → l.get? j = some a →
          a.idx ≤ l[left + (right - left) / 2].idx := by
        intro j a hjle hja
        have hjlen : j < l.length := by
          have := List.get?_eq_some.mp hja
          exact this.1
        have hja' : l[j] = a := by
          have := List.get?_eq_some.mp hja
          rcases this with ⟨h, hget⟩
          simpa using hget
        rcases Nat.lt_or_ge j (left + (right - left) / 2) with hlt | hge
        · have := List.pairwise_iff_getElem.mp hs j (left + (right - left) / 2)
            hjlen hmidlen hlt
          rw [hja'] at this
          exact le_of_lt this
        · have : j = left + (right - left) / 2 := by omega
          subst this
          rw [hja']
      by_cases h1 : (l.getD (left + (right - left) / 2) ⟨0, 0⟩).idx < key
      · rw [if_pos h1] at hj
        refine ih (left + (right - left) / 2 + 1) right hright ?_ j a hj ha
        intro j' a' hj' ha'
        have := hbelow j' a' (by omega) ha'
        rw [hgetD] at h1
        omega
      · rw [if_neg h1] at hj
        by_cases h2 : key < (l.getD (left + (right - left) / 2) ⟨0, 0⟩).idx
        · rw [if_pos h2] at hj
          exact ih left (left + (right - left) / 2) (le_of_lt hmidlen) hleft j a hj ha
        · rw [if_neg h2] at hj
          have hkey : l[left + (right - left) / 2].idx = key := by
            rw [hgetD] at h1 h2
            omega
          have := hbelow j a (by omega) ha
          have hjlen : j < l.length := (List.get?_eq_some.mp ha).1
          have hja' : l[j] = a := by
            rcases List.get?_eq_some.mp ha with ⟨h, hget⟩
            simpa using hget
          have hstrict := List.pairwise_iff_getElem.mp hs j
            (left + (right - left) / 2) hjlen hmidlen hj
          rw [hja', hkey] at hstrict
          exact hstrict
    · rw [if_neg hlr] at hj
      exact hleft j a hj ha

/-- A member of a (non-strictly) `idx`-sorted list that satisfies the
scan bound lies in the `takeWhile` scan prefix. -/
theorem mem_takeWhile_of_sorted (bound : Nat) :
    ∀ (l : List MemoryAccess), l.Pairwise (fun a b => a.idx ≤ b.idx) →
      ∀ a, a ∈ l → a.idx < bound →
        a ∈ l.takeWhile (fun x => x.idx < bound) := by
  intro l
  induction l with
  | nil => intro _ a ha; exact absurd ha (List.not_mem_nil a)
  | cons x xs ih =>
    intro hs a ha hb
    rcases List.mem_cons.mp ha with rfl | ha'
    · rw [List.takeWhile_cons, if_pos (by simpa using hb)]
      exact List.mem_cons_self _ _
    · have hx : x.idx ≤ a.idx := List.rel_of_pairwise_cons hs ha'
      rw [List.takeWhile_cons, if_pos (by simp; omega)]
      exact List.mem_cons_of_mem x (ih hs.of_cons a ha' hb)

/-- Counterexample to claim C5 as stated: the access log
`[(idx 0, addr 0), (idx 0, addr 2), (idx 0, addr 4)]` is sorted by `idx`
ascending, the access at address `0` has `idx = 0` inside the window
`[proven_trace, proven_trace + num_rows) = [0, 1)`, yet its page
`0 >> 1 = 0` is not inserted into the accessed pages: the binary search
lands in the middle of the run of duplicate `idx = 0` keys and the scan
starts after this access. -/
theorem accessed_page_coverage_cex :
    cexLog.Pairwise (fun a b => a.idx ≤ b.idx)
    ∧ (⟨0, 0⟩ : MemoryAccess) ∈ cexLog
    ∧ 0 ≤ (MemoryAccess.mk 0 0).idx
    ∧ (MemoryAccess.mk 0 0).idx < 0 + 1
    ∧ ((MemoryAccess.mk 0 0).address >>> 1) ∉ accessedPagesList cexLog 0 1 1 := by
  decide

/-- Claim C5 (amended): if the memory-access log is sorted by `idx`
STRICTLY ascending (no duplicate `idx` keys — the counterexample shows
non-strict sortedness is not enough), then every access whose `idx` lies
in `[proven_trace, proven_trace + num_rows)` has its page
`address >> PAGE_SIZE_BYTES_LOG` in the accessed-pages set of that
iteration. -/
theorem accessed_page_coverage_strict (log : List MemoryAccess)
    (provenTrace numRows pageSizeLog : Nat)
    (hs : log.Pairwise (fun a b => a.idx < b.idx))
    (a : MemoryAccess) (ha : a ∈ log) (h1 : provenTrace ≤ a.idx)
    (h2 : a.idx < provenTrace + numRows) :
    (a.address >>> pageSizeLog) ∈ accessedPagesList log provenTrace numRows pageSizeLog := by
  unfold accessedPagesList
  rw [mem_foldl_insertSorted]
  right
  refine ⟨a, ?_, rfl⟩
  apply mem_takeWhile_of_sorted (provenTrace + numRows) _ _ a _ h2
  · exact (hs.drop).imp (fun h => le_of_lt h)
  · obtain ⟨j, hj⟩ := List.get?_of_mem ha
    have hge : binarySearchIdx log provenTrace ≤ j := by
      by_contra hcon
      have := binarySearchLoop_lower_bound log provenTrace hs
        (log.length + 1) 0 log.length (le_refl _) (by omega) j a
        (by unfold binarySearchIdx at hcon; omega) hj
      omega
    have : (log.drop (binarySearchIdx log provenTrace)).get?
        (j - binarySearchIdx log provenTrace) = some a := by
      rw [List.get?_drop]
      have : binarySearchIdx log provenTrace + (j - binarySearchIdx log provenTrace) = j := by
        omega
      rw [this]
      exact hj
    exact List.get?_mem this

/-- Witness for the amended claim C5 at a concrete input: in the strictly
sorted log `strictLog`, the access `(idx 1, addr 4)` falls in the window
`[0, 2)` and its page `4 >> 1 = 2` is among the accessed pages. -/
theorem accessed_page_coverage_strict_witness :
    ((MemoryAccess.mk 1 4).address >>> 1) ∈ accessedPagesList strictLog 0 2 1 :=
  accessed_page_coverage_strict strictLog 0 2 1 (by decide) ⟨1, 4⟩ (by decide)
    (by decide) (by decide)

/-- `runChunks` succeeds iff every chunk's callback succeeds. -/
theorem runChunks_ok_iff {F E : Type} (factory : Unit → Pipeline F)
    (callback : Pipeline F → Except E Unit) :
    ∀ (l : List (List F)) (i0 : Nat),
      (runChunks factory callback i0 l = .ok () ↔
        ∀ j v, l.get? j = some v →
          callback (chunkPipeline factory (i0 + j) v) = .ok ()) := by
  intro l
  induction l with
  | nil => intro i0; simp [runChunks]
  | cons x rest ih =>
    intro i0
    rw [runChunks]
    constructor
    · intro h j v hv
      rcases hc : callback (chunkPipeline factory i0 x) with e | u
      · rw [hc] at h; exact absurd h (by simp)
      · rw [hc] at h
        match j, hv with
        | 0, hv =>
          cases Option.some.inj hv
          rw [Nat.add_zero]
          rw [hc]
        | j + 1, hv =>
          have := ((ih (i0 + 1)).1 h) j v hv
          have harith : i0 + 1 + j = i0 + (j + 1) := by omega
          rwa [harith] at this
    · intro h
      have h0 := h 0 x rfl
      rw [Nat.add_zero] at h0
      rw [h0]
      refine (ih (i0 + 1)).2 ?_
      intro j v hv
      have := h (j + 1) v hv
      have harith : i0 + (j + 1) = i0 + 1 + j := by omega
      rwa [harith] at this

/-- If the callbacks before index `j` succeed and the one at `j` fails,
`runChunks` returns that error (the entries after `j` are irrelevant, so
their callbacks are never invoked). -/
theorem runChunks_first_error {F E : Type} (factory : Unit → Pipeline F)
    (callback : Pipeline F → Except E Unit) :
    ∀ (l : List (List F)) (i0 j : Nat) (e : E) (v : List F),
      (∀ k w, k < j → l.get? k = some w →
        callback (chunkPipeline factory (i0 + k) w) = .ok ()) →
      l.get? j = some v →
      callback (chunkPipeline factory (i0 + j) v) = .error e →
      runChunks factory callback i0 l = .error e := by
  intro l
  induction l with
  | nil => intro i0 j e v _ hv; exact absurd hv (by simp)
  | cons x rest ih =>
    intro i0 j e v hok hv herr
    rw [runChunks]
    match j, hv, herr with
    | 0, hv, herr =>
      cases Option.some.inj hv
      rw [Nat.add_zero] at herr
      rw [herr]
    | j + 1, hv, herr =>
      have h0 := hok 0 x (Nat.succ_pos j) rfl
      rw [Nat.add_zero] at h0
      rw [h0]
      refine ih (i0 + 1) j e v ?_ hv ?_
      · intro k w hk hw
        have := hok (k + 1) w (Nat.succ_lt_succ hk) hw
        rw [Nat.add_comm k 1, ← Nat.add_assoc] at this
        exact this
      · rw [Nat.add_comm j 1, ← Nat.add_assoc] at herr
        exact herr

/-- Claim C8: `rust_continuations` processes the bootloader input vectors
in order; the `i`-th one gets a fresh pipeline from the factory, renamed
to `"<base>_chunk_<i>"`, with an external witness column
`"main.bootloader_input_value"` bound to the vector, and the callback is
invoked on it; the first callback error terminates the sequence (entries
after it no longer matter) and is returned unchanged, and the function
returns `Ok(())` iff every callback succeeds. -/
theorem rust_continuations_spec {F E : Type} (factory : Unit → Pipeline F)
    (callback : Pipeline F → Except E Unit) (inputs : List (List F)) :
    (∀ i v, (chunkPipeline factory i v).name
        = (factory ()).name ++ chunkNameInfix ++ toString i
      ∧ (chunkPipeline factory i v).externalWitness
        = (factory ()).externalWitness ++ [(bootloaderInputColumnName, v)])
    ∧ (rust_continuations factory callback inputs = .ok () ↔
        ∀ j v, inputs.get? j = some v →
          callback (chunkPipeline factory j v) = .ok ())
    ∧ (∀ j e v,
        (∀ k w, k < j → inputs.get? k = some w →
          callback (chunkPipeline factory k w) = .ok ()) →
        inputs.get? j = some v →
        callback (chunkPipeline factory j v) = .error e →
        rust_continuations factory callback inputs = .error e) := by
  refine ⟨fun i v => ⟨rfl, rfl⟩, ?_, ?_⟩
  · rw [rust_continuations, runChunks_ok_iff factory callback inputs 0]
    constructor
    · intro h j v hv; have := h j v hv; rwa [Nat.zero_add] at this
    · intro h j v hv; rw [Nat.zero_add]; exact h j v hv
  · intro j e v hok hv herr
    refine runChunks_first_error factory callback inputs 0 j e v ?_ hv ?_
    · intro k w hk hw; rw [Nat.zero_add]; exact hok k w hk hw
    · rwa [Nat.zero_add]

/-- Witness for claim C8's theorem at a concrete instance: with three
input vectors and a callback that fails on chunk 1 with error `5`, the
run returns error `5`. -/
theorem rust_continuations_spec_witness :
    rust_continuations cFactory cCallback [[1], [2], [3]] = .error 5 := by
  refine (rust_continuations_spec cFactory cCallback [[1], [2], [3]]).2.2 1 5 [2]
    ?_ rfl ?_
  · intro k w hk hw
    match k, hk, hw with
    | 0, _, hw =>
      cases Option.some.inj hw
      rfl
  · rfl

/-- Claim C10: `contained_type_vars_with_repetitions` enumerates exactly
the type-variable occurrences in left-to-right traversal order (array
base, tuple items in order, function parameters followed by the value);
`contained_type_vars` is the same sequence deduplicated keeping the first
occurrence of each name; and `is_concrete_type` returns `true` iff that
sequence is empty. -/
theorem contained_type_vars_characterisation (t : Ty) :
    t.containedTypeVarsWithRepetitions = typeVarOccurrences t
    ∧ t.containedTypeVars = firstOccurrences t.containedTypeVarsWithRepetitions
    ∧ (t.is_concrete_type = true ↔ t.containedTypeVarsWithRepetitions = []) := by
  refine ⟨containedTypeVarsWithRepetitions_eq_occurrences t, ?_, ?_⟩
  · rw [Ty.containedTypeVars, firstOccurrences, foldl_firstOccurrences]
    rfl
  · rw [Ty.is_concrete_type, List.isEmpty_iff]

/-- Inversion of a driver iteration that continues with a further chunk:
all values recorded in the `ChunkRecord` and the next state are as
computed by `continuations.rs:174-278`. -/
theorem dryRunStep_next_inv {F MT : Type} [DecidableEq F] (env : BootEnv F)
    (M : MerkleOps F MT)
    (exec : List F → Nat → (String → List F) × List (Nat × F))
    (fullTrace : String → List F) (memoryAccesses : List MemoryAccess)
    (numRows : Nat) (st : DryState F MT) (r : ChunkRecord F MT) (st' : DryState F MT)
    (h : dryRunStep env M exec fullTrace memoryAccesses numRows st = .next r st') :
    r.pages = accessedPagesList memoryAccesses st.provenTrace numRows env.pageSizeLog
    ∧ r.inputs = assembleBootloaderInputs env M st.tree st.registerValues r.pages
    ∧ r.entryRegs = st.registerValues
    ∧ r.entryTree = st.tree
    ∧ r.provenTrace = st.provenTrace
    ∧ r.chunkTrace = (exec r.inputs numRows).1
    ∧ r.snapshot = (exec r.inputs numRows).2
    ∧ (∃ pcValue, r.inputs.get? env.pcIndex = some pcValue
        ∧ (r.chunkTrace mainPcColumn).findIdx? (fun pc => pc = pcValue) = some r.start)
    ∧ validateChunk r.chunkTrace fullTrace env.registerNames r.start st.provenTrace 0
        ((r.chunkTrace mainPcColumn).length - r.start) = .ok
    ∧ numRows ≤ (r.chunkTrace mainPcColumn).length
    ∧ regsLastRow env.registerNames r.chunkTrace = some st'.registerValues
    ∧ st'.tree = M.update st.tree r.snapshot
    ∧ st'.provenTrace = st.provenTrace + (numRows - r.start - 1)
    ∧ st'.chunkIndex = st.chunkIndex + 1 := by
  simp only [dryRunStep] at h
  split at h
  · exact absurd h (by simp)
  · rename_i pcValue hpc
    split at h
    · exact absurd h (by simp)
    · rename_i start hstart
      split at h
      · rename_i hval
        split at h
        · exact absurd h (by simp)
        · rename_i hlen
          split at h
          · exact absurd h (by simp)
          · rename_i newRegs hregs
            cases h
            refine ⟨rfl, rfl, rfl, rfl, rfl, rfl, rfl, ⟨pcValue, hpc, hstart⟩,
              hval, Nat.le_of_not_lt hlen, hregs, rfl, rfl, rfl⟩
      · exact absurd h (by simp)

/-- Inversion of a final driver iteration (the `break` at
`continuations.rs:263`). -/
theorem dryRunStep_done_inv {F MT : Type} [DecidableEq F] (env : BootEnv F)
    (M : MerkleOps F MT)
    (exec : List F → Nat → (String → List F) × List (Nat × F))
    (fullTrace : String → List F) (memoryAccesses : List MemoryAccess)
    (numRows : Nat) (st : DryState F MT) (r : ChunkRecord F MT)
    (h : dryRunStep env M exec fullTrace memoryAccesses numRows st = .done r) :
    r.pages = accessedPagesList memoryAccesses st.provenTrace numRows env.pageSizeLog
    ∧ r.inputs = assembleBootloaderInputs env M st.tree st.registerValues r.pages
    ∧ r.entryRegs = st.registerValues
    ∧ r.entryTree = st.tree
    ∧ r.provenTrace = st.provenTrace
    ∧ r.chunkTrace = (exec r.inputs numRows).1
    ∧ r.snapshot = (exec r.inputs numRows).2
    ∧ (∃ pcValue, r.inputs.get? env.pcIndex = some pcValue
        ∧ (r.chunkTrace mainPcColumn).findIdx? (fun pc => pc = pcValue) = some r.start)
    ∧ validateChunk r.chunkTrace fullTrace env.registerNames r.start st.provenTrace 0
        ((r.chunkTrace mainPcColumn).length - r.start) = .ok
    ∧ (r.chunkTrace mainPcColumn).length < numRows := by
  simp only [dryRunStep] at h
  split at h
  · exact absurd h (by simp)
  · rename_i pcValue hpc
    split at h
    · exact absurd h (by simp)
    · rename_i start hstart
      split at h
      · rename_i hval
        split at h
        · rename_i hlen
          cases h
          exact ⟨rfl, rfl, rfl, rfl, rfl, rfl, rfl, ⟨pcValue, hpc, hstart⟩, hval, hlen⟩
        · split at h
          · exact absurd h (by simp)
          · exact absurd h (by simp)
      · exact absurd h (by simp)

/-- A successful driver loop emits at least one chunk. -/
theorem dryRunLoop_ne_nil {F MT : Type} [DecidableEq F] (env : BootEnv F)
    (M : MerkleOps F MT)
    (exec : List F → Nat → (String → List F) × List (Nat × F))
    (fullTrace : String → List F) (memoryAccesses : List MemoryAccess)
    (numRows : Nat) :
    ∀ (fuel : Nat) (st : DryState F MT) (rs : List (ChunkRecord F MT)),
      dryRunLoop env M exec fullTrace memoryAccesses numRows fuel st = some (.ok rs) →
      rs ≠ [] := by
  intro fuel
  cases fuel with
  | zero => intro st rs h; exact absurd h (by simp [dryRunLoop])
  | succ fuel =>
    intro st rs h
    rw [dryRunLoop] at h
    split at h
    · exact absurd h (by simp)
    · cases h; simp
    · split at h
      · exact absurd h (by simp)
      · exact absurd h (by simp)
      · cases h; simp

/-- Loop invariant of the driver: the head record starts from the loop
state, consecutive records are chained by the Merkle update, the
last-row register handoff and the `proven_trace` advance, and every
record's fields are computed from its own entry state. -/
theorem dryRunLoop_chain {F MT : Type} [DecidableEq F] (env : BootEnv F)
    (M : MerkleOps F MT)
    (exec : List F → Nat → (String → List F) × List (Nat × F))
    (fullTrace : String → List F) (memoryAccesses : List MemoryAccess)
    (numRows : Nat) :
    ∀ (fuel : Nat) (st : DryState F MT) (rs : List (ChunkRecord F MT)),
      dryRunLoop env M exec fullTrace memoryAccesses numRows fuel st = some (.ok rs) →
      (∀ r0, rs.get? 0 = some r0 →
        r0.entryTree = st.tree ∧ r0.entryRegs = st.registerValues
          ∧ r0.provenTrace = st.provenTrace)
      ∧ (∀ k r r', rs.get? k = some r → rs.get? (k + 1) = some r' →
          r'.entryTree = M.update r.entryTree r.snapshot
          ∧ regsLastRow env.registerNames r.chunkTrace = some r'.entryRegs
          ∧ r'.provenTrace = r.provenTrace + (numRows - r.start - 1))
      ∧ (∀ r ∈ rs,
          r.pages = accessedPagesList memoryAccesses r.provenTrace numRows env.pageSizeLog
          ∧ r.inputs = assembleBootloaderInputs env M r.entryTree r.entryRegs r.pages
          ∧ r.chunkTrace = (exec r.inputs numRows).1
          ∧ r.snapshot = (exec r.inputs numRows).2) := by
  intro fuel
  induction fuel with
  | zero => intro st rs h; exact absurd h (by simp [dryRunLoop])
  | succ fuel ih =>
    intro st rs h
    rw [dryRunLoop] at h
    split at h
    · exact absurd h (by simp)
    · rename_i r hstep
      cases h
      obtain ⟨hp, hi, hr, ht, hpt, hct, hsn, _, _, _⟩ :=
        dryRunStep_done_inv env M exec fullTrace memoryAccesses numRows st r hstep
      refine ⟨?_, ?_, ?_⟩
      · intro r0 h0
        cases Option.some.inj h0
        exact ⟨ht, hr, hpt⟩
      · intro k r₁ r₂ h₁ h₂
        match k, h₂ with
        | 0, h₂ => exact absurd h₂ (by simp)
        | k + 1, h₂ => exact absurd h₂ (by simp)
      · intro r' hr'
        rcases List.mem_singleton.mp hr' with rfl
        exact ⟨hpt ▸ hp, by rw [hi, hr, ht], hct, hsn⟩
    · rename_i r st' hstep
      split at h
      · exact absurd h (by simp)
      · exact absurd h (by simp)
      · rename_i rest hrest
        cases h
        obtain ⟨hp, hi, hr, ht, hpt, hct, hsn, _, _, _, hregs, ht', hpt', _⟩ :=
          dryRunStep_next_inv env M exec fullTrace memoryAccesses numRows st r st' hstep
        obtain ⟨ihhead, ihchain, ihall⟩ := ih st' rest hrest
        have hrestne : rest ≠ [] :=
          dryRunLoop_ne_nil env M exec fullTrace memoryAccesses numRows fuel st' rest hrest
        refine ⟨?_, ?_, ?_⟩
        · intro r0 h0
          cases Option.some.inj h0
          exact ⟨ht, hr, hpt⟩
        · intro k r₁ r₂ h₁ h₂
          match k, h₁, h₂ with
          | 0, h₁, h₂ =>
            cases Option.some.inj h₁
            obtain ⟨hh1, hh2, hh3⟩ := ihhead r₂ h₂
            refine ⟨?_, ?_, ?_⟩
            · rw [hh1, ht', ht]
            · rw [hregs, hh2]
            · rw [hh3, hpt', hpt]
          | k + 1, h₁, h₂ => exact ihchain k r₁ r₂ h₁ h₂
        · intro r' hr'
          rcases List.mem_cons.mp hr' with rfl | hr''
          · exact ⟨hpt ▸ hp, by rw [hi, hr, ht], hct, hsn⟩
          · exact ihall r' hr''

/-- A successful last-row register handoff yields one value per register
name. -/
theorem regsLastRow_length {F : Type} : ∀ (regNames : List String)
    (chunkTrace : String → List F) (vs : List F),
    regsLastRow regNames chunkTrace = some vs → vs.length = regNames.length := by
  intro regNames
  induction regNames with
  | nil =>
    intro ct vs h
    rw [regsLastRow] at h
    cases Option.some.inj h
    rfl
  | cons r rest ih =>
    intro ct vs h
    rw [regsLastRow] at h
    split at h
    · exact absurd h (by simp)
    · rename_i v hv
      rcases hrec : regsLastRow rest ct with _ | vs'
      · rw [hrec] at h
        exact absurd h (by simp)
      · rw [hrec] at h
        have h' : v :: vs' = vs := Option.some.inj h
        rw [← h']
        simp [ih ct vs' hrec]

/-- If the loop starts with a register snapshot of the canonical length,
every emitted record's entry snapshot has that length. -/
theorem dryRunLoop_regs_length {F MT : Type} [DecidableEq F] (env : BootEnv F)
    (M : MerkleOps F MT)
    (exec : List F → Nat → (String → List F) × List (Nat × F))
    (fullTrace : String → List F) (memoryAccesses : List MemoryAccess)
    (numRows : Nat) :
    ∀ (fuel : Nat) (st : DryState F MT) (rs : List (ChunkRecord F MT)),
      dryRunLoop env M exec fullTrace memoryAccesses numRows fuel st = some (.ok rs) →
      st.registerValues.length = env.registerNames.length →
      ∀ r ∈ rs, r.entryRegs.length = env.registerNames.length := by
  intro fuel
  induction fuel with
  | zero => intro st rs h; exact absurd h (by simp [dryRunLoop])
  | succ fuel ih =>
    intro st rs h hlen r hr
    rw [dryRunLoop] at h
    split at h
    · exact absurd h (by simp)
    · rename_i r₁ hstep
      cases h
      rcases List.mem_singleton.mp hr with rfl
      obtain ⟨_, _, hregs, _⟩ :=
        dryRunStep_done_inv env M exec fullTrace memoryAccesses numRows st r hstep
      rw [hregs, hlen]
    · rename_i r₁ st' hstep
      split at h
      · exact absurd h (by simp)
      · exact absurd h (by simp)
      · rename_i rest hrest
        cases h
        rcases List.mem_cons.mp hr with rfl | hr''
        · obtain ⟨_, _, hregs, _⟩ :=
            dryRunStep_next_inv env M exec fullTrace memoryAccesses numRows st r st' hstep
          rw [hregs, hlen]
        · refine ih st' rest hrest ?_ r hr''
          obtain ⟨_, _, _, _, _, _, _, _, _, _, hregs', _, _, _⟩ :=
            dryRunStep_next_inv env M exec fullTrace memoryAccesses numRows st r₁ st' hstep
          exact regsLastRow_length env.registerNames r₁.chunkTrace st'.registerValues hregs'

/-- Inversion of `dryRunRecords`: a successful run fixes the first real
execution row, the declared degree and the loop call. -/
theorem dryRunRecords_inv {F MT : Type} [DecidableEq F] (env : BootEnv F)
    (M : MerkleOps F MT)
    (exec : List F → Nat → (String → List F) × List (Nat × F))
    (fullTrace : String → List F) (memoryAccesses : List MemoryAccess)
    (machines : List (Option Nat)) (fuel : Nat) (records : List (ChunkRecord F MT))
    (h : dryRunRecords env M exec fullTrace memoryAccesses machines fuel
      = some (.ok records)) :
    ∃ firstReal degree,
      firstRealExecutionRow env fullTrace = some firstReal
      ∧ machineDegree machines = some degree
      ∧ dryRunLoop env M exec fullTrace memoryAccesses (degree - 2) fuel
          ⟨M.empty, env.defaultRegisterValues, firstReal, 0⟩ = some (.ok records) := by
  rw [dryRunRecords] at h
  split at h
  · exact absurd h (by simp)
  · rename_i firstReal hfr
    split at h
    · exact absurd h (by simp)
    · rename_i degree hdeg
      exact ⟨firstReal, degree, hfr, hdeg, h⟩

/-- Folding `Option.or` from a `some` keeps the first value. -/
theorem foldl_option_or_some (x : Nat) :
    ∀ (l : List (Option Nat)), l.foldl (fun acc d => acc.or d) (some x) = some x := by
  intro l
  induction l with
  | nil => rfl
  | cons h t ih => simpa [List.foldl_cons, Option.or] using ih

/-- The degree fold of `continuations.rs:165-169` selects the first
machine (in iteration order) that declares a degree. -/
theorem machineDegree_eq_findSome : ∀ (machines : List (Option Nat)),
    machineDegree machines = machines.findSome? id := by
  intro machines
  induction machines with
  | nil => rfl
  | cons m t ih =>
    cases m with
    | none => simpa [machineDegree, List.foldl_cons, Option.or, List.findSome?] using ih
    | some d =>
      have h1 : machineDegree (some d :: t)
          = List.foldl (fun acc x => acc.or x) (some d) t := rfl
      rw [h1, foldl_option_or_some d t]
      rfl

/-- Under head and chain facts, each record's entry tree is the fold of
the previous records' snapshot updates over the initial tree. -/
theorem chain_fold_entryTree {F MT : Type} (M : MerkleOps F MT) (t0 : MT)
    (rs : List (ChunkRecord F MT))
    (hhead : ∀ r0, rs.get? 0 = some r0 → r0.entryTree = t0)
    (hchain : ∀ k r r', rs.get? k = some r → rs.get? (k + 1) = some r' →
      r'.entryTree = M.update r.entryTree r.snapshot) :
    ∀ i r, rs.get? i = some r →
      r.entryTree = List.foldl M.update t0 ((rs.take i).map ChunkRecord.snapshot) := by
  intro i
  induction i with
  | zero => intro r h; simpa using hhead r h
  | succ i ih =>
    intro r h
    have hi1 : i + 1 < rs.length := (List.get?_eq_some.mp h).1
    obtain ⟨rp, hrp⟩ : ∃ rp, rs.get? i = some rp := by
      rcases hx : rs.get? i with _ | rp
      · have := List.get?_eq_none.mp hx; omega
      · exact ⟨rp, rfl⟩
    rw [hchain i rp r hrp h, ih rp hrp]
    have htake : rs.take (i + 1) = rs.take i ++ [rp] := by
      rw [List.take_succ]
      congr 1
      rw [← List.get?_eq_getElem?, hrp]
      rfl
    rw [htake, List.map_append, List.foldl_append]
    rfl

/-- The register-snapshot part of an assembled bootloader input is the
entry register snapshot. -/
theorem assembled_take_regs {F MT : Type} (env : BootEnv F) (M : MerkleOps F MT)
    (tree : MT) (regs : List F) (pages : List Nat)
    (hlen : regs.length = env.registerNames.length) :
    (assembleBootloaderInputs env M tree regs pages).take env.registerNames.length
      = regs := by
  rw [assembleBootloaderInputs, List.append_assoc, List.append_assoc]
  exact List.take_left' hlen

/-- The hash-width slice after the register snapshot of an assembled
bootloader input is the Merkle root it was assembled from. -/
theorem assembled_root_slice {F MT : Type} (env : BootEnv F) (M : MerkleOps F MT)
    (tree : MT) (regs : List F) (pages : List Nat) (hashWidth : Nat)
    (hlen : regs.length = env.registerNames.length)
    (hwidth : (M.rootHash tree).length = hashWidth) :
    ((assembleBootloaderInputs env M tree regs pages).drop
        env.registerNames.length).take hashWidth
      = M.rootHash tree := by
  rw [assembleBootloaderInputs, List.append_assoc, List.append_assoc,
    List.drop_left' hlen, List.take_left' hwidth]

/-- Claim C2: every bootloader input vector emitted by
`rust_continuations_dry_run` is exactly the register snapshot (one value
per name in `REGISTER_NAMES`), then the current Merkle root, then the
accessed-page count, then — for each accessed page in strictly ascending
`page_index` order — the page index, the page contents and the flattened
inclusion proof. -/
theorem bootloader_input_layout {F MT : Type} [DecidableEq F] (env : BootEnv F)
    (M : MerkleOps F MT)
    (exec : List F → Nat → (String → List F) × List (Nat × F))
    (fullTrace : String → List F) (memoryAccesses : List MemoryAccess)
    (machines : List (Option Nat)) (fuel : Nat) (records : List (ChunkRecord F MT))
    (hdef : env.defaultRegisterValues.length = env.registerNames.length)
    (hrun : dryRunRecords env M exec fullTrace memoryAccesses machines fuel
      = some (.ok records)) :
    ∀ r ∈ records,
      r.inputs = r.entryRegs ++ M.rootHash r.entryTree
          ++ [env.fromNat r.pages.length]
          ++ r.pages.flatMap (pageEntry env M r.entryTree)
      ∧ r.entryRegs.length = env.registerNames.length
      ∧ r.pages.Pairwise (· < ·) := by
  obtain ⟨fr, deg, hfr, hdeg, hloop⟩ :=
    dryRunRecords_inv env M exec fullTrace memoryAccesses machines fuel records hrun
  obtain ⟨hhead, hchain, hall⟩ :=
    dryRunLoop_chain env M exec fullTrace memoryAccesses (deg - 2) fuel _ records hloop
  intro r hr
  obtain ⟨hp, hi, hct, hsn⟩ := hall r hr
  refine ⟨by rw [hi]; rfl, ?_, ?_⟩
  · exact dryRunLoop_regs_length env M exec fullTrace memoryAccesses (deg - 2) fuel _
      records hloop hdef r hr
  · rw [hp]
    exact pairwise_foldl_insertSorted _ _ [] (by simp)

/-- Claim C3: the hash-width slice of `all_bootloader_inputs[i]`
immediately after the register snapshot equals the Merkle root after
applying exactly the memory-snapshot updates of chunks `0..=i-1` to the
empty tree (for `i = 0` this is the empty tree's root), and equivalently
the tree at the start of chunk `i` is the tree at the end of chunk
`i-1`. -/
theorem root_continuity {F MT : Type} [DecidableEq F] (env : BootEnv F)
    (M : MerkleOps F MT)
    (exec : List F → Nat → (String → List F) × List (Nat × F))
    (fullTrace : String → List F) (memoryAccesses : List MemoryAccess)
    (machines : List (Option Nat)) (fuel : Nat) (records : List (ChunkRecord F MT))
    (hashWidth : Nat)
    (hdef : env.defaultRegisterValues.length = env.registerNames.length)
    (hwidth : ∀ t, (M.rootHash t).length = hashWidth)
    (hrun : dryRunRecords env M exec fullTrace memoryAccesses machines fuel
      = some (.ok records)) :
    ∀ i r, records.get? i = some r →
      (r.inputs.drop env.registerNames.length).take hashWidth
        = M.rootHash (List.foldl M.update M.empty
            ((records.take i).map ChunkRecord.snapshot))
      ∧ r.entryTree = List.foldl M.update M.empty
          ((records.take i).map ChunkRecord.snapshot) := by
  obtain ⟨fr, deg, hfr, hdeg, hloop⟩ :=
    dryRunRecords_inv env M exec fullTrace memoryAccesses machines fuel records hrun
  obtain ⟨hhead, hchain, hall⟩ :=
    dryRunLoop_chain env M exec fullTrace memoryAccesses (deg - 2) fuel _ records hloop
  intro i r hi
  have hfold := chain_fold_entryTree M M.empty records
    (fun r0 h0 => (hhead r0 h0).1)
    (fun k r₁ r₂ h₁ h₂ => (hchain k r₁ r₂ h₁ h₂).1) i r hi
  have hmem : r ∈ records := List.get?_mem hi
  obtain ⟨hp, hinp, hct, hsn⟩ := hall r hmem
  have hlen : r.entryRegs.length = env.registerNames.length :=
    dryRunLoop_regs_length env M exec fullTrace memoryAccesses (deg - 2) fuel _
      records hloop hdef r hmem
  refine ⟨?_, hfold⟩
  rw [hinp, assembled_root_slice env M r.entryTree r.entryRegs r.pages hashWidth hlen
    (hwidth r.entryTree), hfold]

/-- Claim C4: the first `|REGISTER_NAMES|` entries of
`all_bootloader_inputs[0]` are `default_register_values()`, and for every
`k` the first `|REGISTER_NAMES|` entries of `all_bootloader_inputs[k+1]`
are, name by name in `REGISTER_NAMES` order, the last-row values of chunk
`k`'s trace (`regsLastRow` is the `chunk_trace[r].last().unwrap()` map of
`continuations.rs:272-275`). -/
theorem register_continuity {F MT : Type} [DecidableEq F] (env : BootEnv F)
    (M : MerkleOps F MT)
    (exec : List F → Nat → (String → List F) × List (Nat × F))
    (fullTrace : String → List F) (memoryAccesses : List MemoryAccess)
    (machines : List (Option Nat)) (fuel : Nat) (records : List (ChunkRecord F MT))
    (hdef : env.defaultRegisterValues.length = env.registerNames.length)
    (hrun : dryRunRecords env M exec fullTrace memoryAccesses machines fuel
      = some (.ok records)) :
    (∀ r0, records.get? 0 = some r0 →
      r0.inputs.take env.registerNames.length = env.defaultRegisterValues)
    ∧ (∀ k r r', records.get? k = some r → records.get? (k + 1) = some r' →
        regsLastRow env.registerNames r.chunkTrace
          = some (r'.inputs.take env.registerNames.length)) := by
  obtain ⟨fr, deg, hfr, hdeg, hloop⟩ :=
    dryRunRecords_inv env M exec fullTrace memoryAccesses machines fuel records hrun
  obtain ⟨hhead, hchain, hall⟩ :=
    dryRunLoop_chain env M exec fullTrace memoryAccesses (deg - 2) fuel _ records hloop
  have htake : ∀ r ∈ records, r.inputs.take env.registerNames.length = r.entryRegs := by
    intro r hmem
    obtain ⟨hp, hinp, hct, hsn⟩ := hall r hmem
    have hlen : r.entryRegs.length = env.registerNames.length :=
      dryRunLoop_regs_length env M exec fullTrace memoryAccesses (deg - 2) fuel _
        records hloop hdef r hmem
    rw [hinp, assembled_take_regs env M r.entryTree r.entryRegs r.pages hlen]
  constructor
  · intro r0 h0
    obtain ⟨_, hregs, _⟩ := hhead r0 h0
    rw [htake r0 (List.get?_mem h0), hregs]
  · intro k r r' hk hk1
    obtain ⟨_, hregs, _⟩ := hchain k r r' hk hk1
    rw [htake r' (List.get?_mem hk1)]
    exact hregs

/-- Claim C7: the chunk row budget is `num_rows = degree − 2` where
`degree` is the first declared machine degree in iteration order; every
chunk execution is invoked with exactly this `num_rows` as its maximum
row count; and after a full-length chunk `proven_trace` advances by
exactly `num_rows − start − 1`. -/
theorem num_rows_budget {F MT : Type} [DecidableEq F] (env : BootEnv F)
    (M : MerkleOps F MT)
    (exec : List F → Nat → (String → List F) × List (Nat × F))
    (fullTrace : String → List F) (memoryAccesses : List MemoryAccess)
    (machines : List (Option Nat)) (fuel : Nat) (records : List (ChunkRecord F MT))
    (degree : Nat)
    (hdeg : machineDegree machines = some degree)
    (hrun : dryRunRecords env M exec fullTrace memoryAccesses machines fuel
      = some (.ok records)) :
    machineDegree machines = machines.findSome? id
    ∧ (∀ r ∈ records, r.chunkTrace = (exec r.inputs (degree - 2)).1
        ∧ r.snapshot = (exec r.inputs (degree - 2)).2)
    ∧ (∀ k r r', records.get? k = some r → records.get? (k + 1) = some r' →
        r'.provenTrace = r.provenTrace + ((degree - 2) - r.start - 1)) := by
  obtain ⟨fr, deg, hfr, hdeg', hloop⟩ :=
    dryRunRecords_inv env M exec fullTrace memoryAccesses machines fuel records hrun
  have hdd : deg = degree := by
    rw [hdeg'] at hdeg
    exact Option.some.inj hdeg
  subst hdd
  obtain ⟨hhead, hchain, hall⟩ :=
    dryRunLoop_chain env M exec fullTrace memoryAccesses (deg - 2) fuel _ records hloop
  refine ⟨machineDegree_eq_findSome machines, ?_, ?_⟩
  · intro r hr
    obtain ⟨_, _, hct, hsn⟩ := hall r hr
    exact ⟨hct, hsn⟩
  · intro k r r' hk hk1
    obtain ⟨_, _, hpt⟩ := hchain k r r' hk hk1
    exact hpt

/-- Witness for claim C2's theorem: the single bootloader input of the
concrete run has the layout (with its page list strictly ascending). -/
theorem bootloader_input_layout_witness :
    wRecord.inputs = wRecord.entryRegs ++ wM.rootHash wRecord.entryTree
        ++ [wEnv.fromNat wRecord.pages.length]
        ++ wRecord.pages.flatMap (pageEntry wEnv wM wRecord.entryTree)
    ∧ wRecord.entryRegs.length = wEnv.registerNames.length
    ∧ wRecord.pages.Pairwise (· < ·) :=
  bootloader_input_layout wEnv wM wExec wFull ([] : List MemoryAccess) wMachines 1
    wRecords rfl (by rfl) wRecord (List.mem_singleton.mpr rfl)

/-- Witness for claim C3's theorem: chunk 0's embedded root slice of the
concrete run is the empty tree's root. -/
theorem root_continuity_witness :
    (wRecord.inputs.drop wEnv.registerNames.length).take 1
      = wM.rootHash (List.foldl wM.update wM.empty
          ((wRecords.take 0).map ChunkRecord.snapshot))
    ∧ wRecord.entryTree = List.foldl wM.update wM.empty
        ((wRecords.take 0).map ChunkRecord.snapshot) :=
  root_continuity wEnv wM wExec wFull ([] : List MemoryAccess) wMachines 1 wRecords 1
    rfl (fun _ => rfl) (by rfl) 0 wRecord rfl

/-- Witness for claim C4's theorem: chunk 0's register snapshot of the
concrete run is `default_register_values()`. -/
theorem register_continuity_witness :
    wRecord.inputs.take wEnv.registerNames.length = wEnv.defaultRegisterValues :=
  (register_continuity wEnv wM wExec wFull ([] : List MemoryAccess) wMachines 1
    wRecords rfl (by rfl)).1 wRecord rfl

/-- Witness for claim C7's theorem: the concrete run's chunk was executed
with row budget `degree - 2 = 2`. -/
theorem num_rows_budget_witness :
    wRecord.chunkTrace = (wExec wRecord.inputs (4 - 2)).1
    ∧ wRecord.snapshot = (wExec wRecord.inputs (4 - 2)).2 :=
  (num_rows_budget wEnv wM wExec wFull ([] : List MemoryAccess) wMachines 1 wRecords 4
    rfl (by rfl)).2.1 wRecord (List.mem_singleton.mpr rfl)

/-- A found index is within the list (stated for the accumulator form of
`List.findIdx?`). -/
theorem findIdx?_bounds {α : Type} (p : α → Bool) :
    ∀ (l : List α) (i j : Nat), List.findIdx? p l i = some j →
      i ≤ j ∧ j < i + l.length := by
  intro l
  induction l with
  | nil => intro i j h; exact absurd h (by simp)
  | cons x xs ih =>
    intro i j h
    rw [List.findIdx?_cons] at h
    by_cases hp : p x
    · rw [if_pos hp] at h
      cases Option.some.inj h
      refine ⟨le_refl _, ?_⟩
      simp
    · rw [if_neg hp] at h
      obtain ⟨h1, h2⟩ := ih (i + 1) j h
      refine ⟨by omega, ?_⟩
      simp only [List.length_cons]
      omega

/-- A validated chunk suffix is exactly the corresponding window of the
full trace: row offset `j` of the suffix equals full-trace row
`proven + j`, for `count` rows. -/
theorem validated_suffix_eq {F : Type} [DecidableEq F] (ct ft : String → List F)
    (regs : List String) (start proven count : Nat)
    (hok : validateChunk ct ft regs start proven 0 count = .ok)
    (reg : String) (hreg : reg ∈ regs)
    (hlen : (ct reg).length = start + count) :
    (ct reg).drop start = ((ft reg).drop proven).take count := by
  have hval : ∀ j, j < count → ∃ v, (ct reg).get? (j + start) = some v
      ∧ (ft reg).get? (j + proven) = some v := by
    intro j hj
    have h1 := (validateChunk_ok_iff ct ft regs start proven count 0).mp hok j hj
    rw [Nat.zero_add] at h1
    exact (checkRegs_ok_iff ct ft (j + start) (j + proven) regs).mp h1 reg hreg
  apply List.ext_get?
  intro n
  by_cases hn : n < count
  · obtain ⟨v, hcv, hfv⟩ := hval n hn
    rw [List.get?_drop, List.get?_take hn, List.get?_drop]
    rw [Nat.add_comm start n, Nat.add_comm proven n, hcv, hfv]
  · have h1 : ((ct reg).drop start).get? n = none := by
      rw [List.get?_drop]
      apply List.get?_eq_none.mpr
      omega
    have h2 : (((ft reg).drop proven).take count).get? n = none := by
      apply List.get?_eq_none.mpr
      rw [List.length_take]
      omega
    rw [h1, h2]

/-- `chunkConcat` on a cons with a nonempty tail drops the head chunk's
last row. -/
theorem chunkConcat_cons {F MT : Type} (r : ChunkRecord F MT)
    (rs : List (ChunkRecord F MT)) (reg : String) (h : rs ≠ []) :
    chunkConcat (r :: rs) reg = (chunkSuffix r reg).dropLast ++ chunkConcat rs reg := by
  cases rs with
  | nil => exact absurd rfl h
  | cons r' rs' => rfl

/-- `getLast?` of a cons with nonempty tail. -/
theorem getLast?_cons_of_ne_nil {α : Type} (a : α) (l : List α) (h : l ≠ []) :
    (a :: l).getLast? = l.getLast? := by
  cases l with
  | nil => exact absurd rfl h
  | cons b t => simp [List.getLast?_cons_cons]

/-- The driver loop's concatenation invariant: if the loop returns
normally, the executor respects its row budget and produces rectangular
traces, the full trace is rectangular, and the final chunk ends exactly
at the end of the full trace, then the concatenated validated suffixes
(last row dropped except for the final chunk) equal the full trace from
the loop's entry `proven_trace` on, for every register. -/
theorem dryRunLoop_concat {F MT : Type} [DecidableEq F] (env : BootEnv F)
    (M : MerkleOps F MT)
    (exec : List F → Nat → (String → List F) × List (Nat × F))
    (fullTrace : String → List F) (memoryAccesses : List MemoryAccess)
    (numRows : Nat)
    (hbudget : ∀ inp n, ((exec inp n).1 mainPcColumn).length ≤ n)
    (hcu : ∀ inp n, ∀ reg ∈ env.registerNames,
      ((exec inp n).1 reg).length = ((exec inp n).1 mainPcColumn).length)
    (hfu : ∀ reg ∈ env.registerNames,
      (fullTrace reg).length = (fullTrace mainPcColumn).length) :
    ∀ (fuel : Nat) (st : DryState F MT) (rs : List (ChunkRecord F MT)),
      dryRunLoop env M exec fullTrace memoryAccesses numRows fuel st = some (.ok rs) →
      (∀ rlast, rs.getLast? = some rlast →
        rlast.provenTrace + ((rlast.chunkTrace mainPcColumn).length - rlast.start)
          = (fullTrace mainPcColumn).length) →
      ∀ reg ∈ env.registerNames,
        chunkConcat rs reg = (fullTrace reg).drop st.provenTrace := by
  intro fuel
  induction fuel with
  | zero => intro st rs h; exact absurd h (by simp [dryRunLoop])
  | succ fuel ih =>
    intro st rs h hlast reg hreg
    rw [dryRunLoop] at h
    split at h
    · exact absurd h (by simp)
    · rename_i r hstep
      cases h
      obtain ⟨hp, hi, hr, ht, hpt, hct, hsn, ⟨pcValue, hpc, hstart⟩, hval, hshort⟩ :=
        dryRunStep_done_inv env M exec fullTrace memoryAccesses numRows st r hstep
      have hstartlt : r.start < (r.chunkTrace mainPcColumn).length := by
        have := findIdx?_bounds (fun pc => pc = pcValue) (r.chunkTrace mainPcColumn)
          0 r.start hstart
        omega
      have hclen : (r.chunkTrace reg).length = (r.chunkTrace mainPcColumn).length := by
        rw [hct]
        exact hcu r.inputs numRows reg hreg
      have hcount := hlast r rfl
      have hsuffix := validated_suffix_eq r.chunkTrace fullTrace env.registerNames
        r.start st.provenTrace ((r.chunkTrace mainPcColumn).length - r.start) hval reg
        hreg (by omega)
      have hconcat : chunkConcat [r] reg = (r.chunkTrace reg).drop r.start := rfl
      rw [hconcat, hsuffix, hpt] at *
      apply List.take_of_length_le
      rw [List.length_drop, hfu reg hreg]
      omega
    · rename_i r st' hstep
      split at h
      · exact absurd h (by simp)
      · exact absurd h (by simp)
      · rename_i rest hrest
        cases h
        obtain ⟨hp, hi, hr, ht, hpt, hct, hsn, ⟨pcValue, hpc, hstart⟩, hval, hfull,
          hregs, ht', hpt', hci'⟩ :=
          dryRunStep_next_inv env M exec fullTrace memoryAccesses numRows st r st' hstep
        have hrestne : rest ≠ [] :=
          dryRunLoop_ne_nil env M exec fullTrace memoryAccesses numRows fuel st' rest hrest
        have hstartlt : r.start < (r.chunkTrace mainPcColumn).length := by
          have := findIdx?_bounds (fun pc => pc = pcValue) (r.chunkTrace mainPcColumn)
            0 r.start hstart
          omega
        have hlenpc : (r.chunkTrace mainPcColumn).length = numRows := by
          have := hbudget r.inputs numRows
          rw [← hct] at this
          omega
        have hclen : (r.chunkTrace reg).length = (r.chunkTrace mainPcColumn).length := by
          rw [hct]
          exact hcu r.inputs numRows reg hreg
        have hsuffix := validated_suffix_eq r.chunkTrace fullTrace env.registerNames
          r.start st.provenTrace ((r.chunkTrace mainPcColumn).length - r.start) hval reg
          hreg (by omega)
        have hcount1 : 1 ≤ (r.chunkTrace mainPcColumn).length - r.start := by omega
        have hfulllen : st.provenTrace + ((r.chunkTrace mainPcColumn).length - r.start)
            ≤ (fullTrace reg).length := by
          have hval1 := (validateChunk_ok_iff r.chunkTrace fullTrace env.registerNames
            r.start st.provenTrace ((r.chunkTrace mainPcColumn).length - r.start) 0).mp
            hval ((r.chunkTrace mainPcColumn).length - r.start - 1) (by omega)
          rw [Nat.zero_add] at hval1
          obtain ⟨v, _, hfv⟩ := (checkRegs_ok_iff r.chunkTrace fullTrace _ _
            env.registerNames).mp hval1 reg hreg
          have := (List.get?_eq_some.mp hfv).1
          omega
        have hih := ih st' rest hrest ?_ reg hreg
        · rw [chunkConcat_cons r rest reg hrestne, hih, chunkSuffix, hsuffix, hpt']
          have hlentake : (((fullTrace reg).drop st.provenTrace).take
              ((r.chunkTrace mainPcColumn).length - r.start)).length
              = (r.chunkTrace mainPcColumn).length - r.start := by
            rw [List.length_take, List.length_drop]
            omega
          rw [List.dropLast_eq_take, hlentake, List.take_take]
          have hmin : min ((r.chunkTrace mainPcColumn).length - r.start - 1)
              ((r.chunkTrace mainPcColumn).length - r.start)
              = (r.chunkTrace mainPcColumn).length - r.start - 1 := by omega
          rw [hmin]
          have hdd : (fullTrace reg).drop
              (st.provenTrace + (numRows - r.start - 1))
              = ((fullTrace reg).drop st.provenTrace).drop
                  ((r.chunkTrace mainPcColumn).length - r.start - 1) := by
            rw [List.drop_drop]
            congr 1
            omega
          rw [hdd, List.take_append_drop]
        · intro rlast hrlast
          apply hlast
          rw [getLast?_cons_of_ne_nil r rest hrestne]
          exact hrlast

/-- Claim C1: when `rust_continuations_dry_run` returns normally,
concatenating each emitted chunk's trace rows from its `start` row (the
first row whose PC equals the chunk's bootloader-input PC) to its end,
dropping the last row of every chunk except the final one, reproduces the
full reference trace from `first_real_execution_row` onward, row for row,
for every register in `REGISTER_NAMES`.  The hypotheses encode the
external executor's contract: it never exceeds its row budget
(`hbudget`), its traces and the full trace are rectangular (`hcu`,
`hfu`), and — by determinism of re-execution — the final chunk ends
exactly where the full trace ends (`hlast`). -/
theorem trace_equivalence {F MT : Type} [DecidableEq F] (env : BootEnv F)
    (M : MerkleOps F MT)
    (exec : List F → Nat → (String → List F) × List (Nat × F))
    (fullTrace : String → List F) (memoryAccesses : List MemoryAccess)
    (machines : List (Option Nat)) (fuel : Nat)
    (records : List (ChunkRecord F MT)) (firstReal : Nat)
    (hbudget : ∀ inp n, ((exec inp n).1 mainPcColumn).length ≤ n)
    (hcu : ∀ inp n, ∀ reg ∈ env.registerNames,
      ((exec inp n).1 reg).length = ((exec inp n).1 mainPcColumn).length)
    (hfu : ∀ reg ∈ env.registerNames,
      (fullTrace reg).length = (fullTrace mainPcColumn).length)
    (hrun : dryRunRecords env M exec fullTrace memoryAccesses machines fuel
      = some (.ok records))
    (hfr : firstRealExecutionRow env fullTrace = some firstReal)
    (hlast : ∀ rlast, records.getLast? = some rlast →
      rlast.provenTrace + ((rlast.chunkTrace mainPcColumn).length - rlast.start)
        = (fullTrace mainPcColumn).length) :
    rust_continuations_dry_run env M exec fullTrace memoryAccesses machines fuel
      = some (.ok (records.map ChunkRecord.inputs))
    ∧ ∀ reg ∈ env.registerNames,
        chunkConcat records reg = (fullTrace reg).drop firstReal := by
  constructor
  · rw [rust_continuations_dry_run, hrun]
    rfl
  · obtain ⟨fr', deg, hfr', hdeg, hloop⟩ :=
      dryRunRecords_inv env M exec fullTrace memoryAccesses machines fuel records hrun
    have hfr'' : fr' = firstReal := by
      rw [hfr] at hfr'
      exact (Option.some.inj hfr').symm
    subst hfr''
    exact dryRunLoop_concat env M exec fullTrace memoryAccesses (deg - 2) hbudget hcu
      hfu fuel ⟨M.empty, env.defaultRegisterValues, fr', 0⟩ records hloop hlast

/-- Witness for claim C1's theorem: the concrete run's single chunk
reproduces the full trace from row 0. -/
theorem trace_equivalence_witness :
    chunkConcat wRecords mainPcColumn = (wFull mainPcColumn).drop 0 :=
  (trace_equivalence wEnv wM wExec wFull ([] : List MemoryAccess) wMachines 1 wRecords 0
    (fun inp n => by simp [wExec])
    (fun inp n reg hreg => rfl)
    (fun reg hreg => rfl)
    (by rfl) (by rfl)
    (fun rlast h => by cases Option.some.inj h; rfl)).2
    mainPcColumn (List.mem_singleton.mpr rfl)

end Powdr
